import Mathlib

/-!
Verification development for the Bear compilation-database core
(bear.py).  The Python source is shallowly embedded: pure functions
become Lean functions, the generator pipeline becomes list functions,
exceptions become Except, and the filesystem / sub-process calls become
explicit oracle parameters.
-/

namespace Bear

/-!
## Path model

A shallow embedding of the posixpath functions used by bear.py:
isabs, basename, join, normpath, splitext, relpath.  Paths are
manipulated through their character lists.  splitSlash models
str.split of Python on the character "/".
-/

def splitSlash : List Char → List (List Char)
  | [] => [[]]
  | c :: rest =>
    if c = '/' then [] :: splitSlash rest
    else
      match splitSlash rest with
      | [] => [[c]]
      | h :: t => (c :: h) :: t

/-!
normParts embeds the component loop of posixpath.normpath: empty and
"." components are skipped, ".." pops the accumulator except at an
absolute root, and everything else is appended.  The abs flag plays
the role of initial_slashes truthiness in the Python source.
-/

def normParts (abs : Bool) : List (List Char) → List (List Char) → List (List Char)
  | acc, [] => acc
  | acc, comp :: rest =>
    if comp = [] ∨ comp = ['.'] then normParts abs acc rest
    else if comp ≠ ['.', '.'] ∨ (abs = false ∧ acc = []) ∨
        (acc ≠ [] ∧ acc.getLast? = some ['.', '.']) then
      normParts abs (acc ++ [comp]) rest
    else if acc ≠ [] then normParts abs acc.dropLast rest
    else normParts abs acc rest

/-- posixpath.normpath on character lists, faithful to the Python
source including the special treatment of exactly two leading
slashes. -/
def normpathChars (l : List Char) : List Char :=
  if l = [] then ['.']
  else
    let abs : Bool := l.head? == some '/'
    let dbl : Bool := (l.take 2 == ['/', '/']) && !(l.take 3 == ['/', '/', '/'])
    let comps := normParts abs [] (splitSlash l)
    let joined := List.intercalate ['/'] comps
    let res := (if abs then (if dbl then ['/', '/'] else ['/']) else []) ++ joined
    if res = [] then ['.'] else res

/-- os.path.normpath. -/
def normpath (s : String) : String := ⟨normpathChars s.data⟩

/-- os.path.isabs: the path starts with a slash. -/
def isabs (s : String) : Bool := s.data.head? == some '/'

/-- A string is path-normalized when normpath leaves it unchanged. -/
def IsNormalized (s : String) : Prop := normpath s = s

/-- posixpath.basename: the characters after the last slash. -/
def basenameChars (l : List Char) : List Char :=
  (l.reverse.takeWhile (fun c => c ≠ '/')).reverse

def basename (s : String) : String := ⟨basenameChars s.data⟩

/-- posixpath.join for the two-argument form used by bear.py. -/
def joinPath (a b : String) : String :=
  if isabs b then b
  else if a.data = [] ∨ a.data.getLast? = some '/' then ⟨a.data ++ b.data⟩
  else ⟨a.data ++ '/' :: b.data⟩

/-- The extension part of posixpath.splitext: the suffix from the last
dot of the basename, unless every character before that dot inside the
basename is itself a dot. -/
def splitextExtChars (l : List Char) : List Char :=
  let b := basenameChars l
  let rev := b.reverse
  let afterDot := rev.takeWhile (fun c => c ≠ '.')
  let rest := rev.drop afterDot.length
  match rest with
  | [] => []
  | _ :: pre => if pre.any (fun c => c ≠ '.') then '.' :: afterDot.reverse else []

def splitextExt (s : String) : String := ⟨splitextExtChars s.data⟩

/-- Element-wise length of the longest common prefix of two component
lists, as os.path.commonprefix computes on a pair of sequences. -/
def lcpLen : List (List Char) → List (List Char) → Nat
  | a :: as2, b :: bs2 => if a = b then lcpLen as2 bs2 + 1 else 0
  | _, _ => 0

/-- posixpath.relpath on character lists.  The abspath calls of the
Python source are modeled by normpath, which coincides with abspath on
the absolute inputs bear.py feeds it. -/
def relpathChars (path start : List Char) : List Char :=
  let pathAbs := normpathChars path
  let startAbs := normpathChars start
  let pathList := (splitSlash pathAbs).filter (fun x => x ≠ [])
  let startList := (splitSlash startAbs).filter (fun x => x ≠ [])
  let i := lcpLen startList pathList
  let relList := List.replicate (startList.length - i) ['.', '.'] ++ pathList.drop i
  if relList = [] then ['.'] else List.intercalate ['/'] relList

def relpath (path start : String) : String := ⟨relpathChars path.data start.data⟩

/-!
## Tool identification

The compiler-name regexes of bear.py are embedded as decidable
matchers on character lists.  A Python pattern anchored with a dollar
also matches just before one trailing newline; pyDollar reproduces
that.  A prefix of shape ([^-]*-)* matches exactly the empty string or
any string ending in a dash, so such patterns are tried at the start
of the string and right after every dash (dashBoundaries).
-/

def pyDollar (core : List Char → Bool) (s : List Char) : Bool :=
  core s || ((s.getLast? == some '\n') && core s.dropLast)

def dashBoundaries : List Char → List (List Char)
  | [] => []
  | c :: rest => if c = '-' then rest :: dashBoundaries rest else dashBoundaries rest

def withBoundaries (s : List Char) : List (List Char) := s :: dashBoundaries s

/-- Matches digits followed by up to k groups of a dot and digits:
the tail of version suffixes such as 10.2.1. -/
def dotNumGroups (k : Nat) (v : List Char) : Bool :=
  let ds := v.takeWhile (fun c => c.isDigit)
  let rest := v.drop ds.length
  if ds = [] then false
  else
    match rest, k with
    | [], _ => true
    | '.' :: r2, k2 + 1 => dotNumGroups k2 r2
    | _, _ => false

/-- The optional gcc-style version suffix (-?[0-9]+(.[0-9]+){0,2})? -/
def gccVer : List Char → Bool
  | [] => true
  | '-' :: r => dotNumGroups 2 r
  | v => dotNumGroups 2 v

/-- The optional clang-style version suffix (-[0-9]+(.[0-9]+){0,2})? -/
def clangVer : List Char → Bool
  | [] => true
  | '-' :: r => dotNumGroups 2 r
  | _ => false

def stemVer (stems : List (List Char)) (ver : List Char → Bool) (s : List Char) : Bool :=
  stems.any fun stem => (s.take stem.length == stem) && ver (s.drop stem.length)

def matchPrefixedStem (stems : List (List Char)) (ver : List Char → Bool)
    (s : List Char) : Bool :=
  (withBoundaries s).any (stemVer stems ver)

/-- COMPILER_PATTERN_WRAPPER: (distcc|ccache) -/
def wrapperCore (t : List Char) : Bool :=
  (t == "distcc".data) || (t == "ccache".data)

/-- COMPILER_PATTERNS_MPI_WRAPPER: mpi(cc|cxx|CC|c++|fort|f77|f90) -/
def mpiWrapperCore (t : List Char) : Bool :=
  ["mpicc", "mpicxx", "mpiCC", "mpic++", "mpifort", "mpif77", "mpif90"].any
    (fun w => t == w.data)

/-- COMPILER_PATTERNS_CC, one matcher per compiled regex. -/
def COMPILER_PATTERNS_CC : List (List Char → Bool) :=
  [matchPrefixedStem ["mcc".data, "gcc".data] gccVer,
   matchPrefixedStem ["clang".data] clangVer,
   fun t => (t == "cc".data) || (t == "icc".data),
   fun t => (t == "xlc".data) || (t == "gxlc".data)]

/-- COMPILER_PATTERNS_CXX. -/
def COMPILER_PATTERNS_CXX : List (List Char → Bool) :=
  [fun t => (t == "c++".data) || (t == "cxx".data) || (t == "CC".data),
   matchPrefixedStem ["m++".data, "g++".data] gccVer,
   matchPrefixedStem ["clang++".data] clangVer,
   fun t => t == "icpc".data,
   fun t => (t == "xlC".data) || (t == "xlc++".data) ||
     (t == "gxlC".data) || (t == "gxlc++".data)]

/-- COMPILER_PATTERNS_FORTRAN. -/
def COMPILER_PATTERNS_FORTRAN : List (List Char → Bool) :=
  [fun t => t == "f95".data,
   fun t => t == "gfortran".data,
   fun t => t == "ifort".data,
   fun t => ["pgf77", "pgf90", "pgf95", "pgfortran"].any (fun w => t == w.data)]

structure Tools where
  ignore : Bool
  c_compilers : List String
  cxx_compilers : List String
  fortran_compilers : List String
deriving DecidableEq, Repr

/-- Tools.__init__: the operator-declared compiler names are stored by
basename. -/
def Tools.ofArgs (only_use : Bool) (cc cxx fortran : List String) : Tools :=
  ⟨only_use, cc.map basename, cxx.map basename, fortran.map basename⟩

/-- Tools._is_sting_match. -/
def stringMatch (candidate : String) (compilers : List String) : Bool :=
  compilers.any (fun c => candidate == c)

/-- Tools._is_pattern_match. -/
def patternAny (patterns : List (List Char → Bool)) (candidate : String) : Bool :=
  patterns.any (fun p => pyDollar p candidate.data)

/-- Tools.is_wrapper (a classmethod, independent of the instance). -/
def Tools.is_wrapper (cmd : String) : Bool := pyDollar wrapperCore cmd.data

/-- Tools.is_mpi_wrapper. -/
def Tools.is_mpi_wrapper (cmd : String) : Bool := pyDollar mpiWrapperCore cmd.data

def Tools.is_c_compiler (t : Tools) (cmd : String) : Bool :=
  let use_match := stringMatch cmd t.c_compilers
  let pattern_match := patternAny COMPILER_PATTERNS_CC cmd
  if t.ignore then use_match else (use_match || pattern_match)

def Tools.is_cxx_compiler (t : Tools) (cmd : String) : Bool :=
  let use_match := stringMatch cmd t.cxx_compilers
  let pattern_match := patternAny COMPILER_PATTERNS_CXX cmd
  if t.ignore then use_match else (use_match || pattern_match)

def Tools.is_fortran_compiler (t : Tools) (cmd : String) : Bool :=
  let use_match := stringMatch cmd t.fortran_compilers
  let pattern_match := patternAny COMPILER_PATTERNS_FORTRAN cmd
  if t.ignore then use_match else (use_match || pattern_match)

/-- The Tools built by intercept_build from the argparse defaults:
use_cc = [cc], use_cxx = [c++], use_fortran = [f95], no use_only. -/
def defaultTools : Tools := Tools.ofArgs false ["cc"] ["c++"] ["f95"]

/-!
## Source classification and flag tables
-/

/-- The extension table of classify_source. -/
def extMapping (c_compiler : Bool) : List (String × String) :=
  [(".c", if c_compiler then "c" else "c++"),
   (".i", if c_compiler then "c-cpp-output" else "c++-cpp-output"),
   (".ii", "c++-cpp-output"),
   (".m", "objective-c"),
   (".mi", "objective-c-cpp-output"),
   (".mm", "objective-c++"),
   (".mii", "objective-c++-cpp-output"),
   (".C", "c++"), (".cc", "c++"), (".CC", "c++"), (".cp", "c++"),
   (".cpp", "c++"), (".cxx", "c++"), (".c++", "c++"), (".C++", "c++"),
   (".txx", "c++"),
   (".s", "assembly"), (".S", "assembly"), (".sx", "assembly"),
   (".asm", "assembly"),
   (".f95", "fortran"), (".F95", "fortran"), (".f90", "fortran"),
   (".F90", "fortran"), (".f", "fortran"), (".F", "fortran"),
   (".FOR", "fortran"), (".f77", "fortran"), (".fc", "fortran"),
   (".for", "fortran"), (".ftn", "fortran"), (".fpp", "fortran")]

/-- classify_source: map the extension of the basename through the
table; none means the name is not a source file. -/
def classify_source (filename : String) (c_compiler : Bool) : Option String :=
  List.lookup (splitextExt (basename filename)) (extMapping c_compiler)

/-- IGNORED_FLAGS with the number of following arguments to skip. -/
def IGNORED_FLAGS : List (String × Nat) :=
  [("-MD", 0), ("-MMD", 0), ("-MG", 0), ("-MP", 0),
   ("-MF", 1), ("-MT", 1), ("-MQ", 1),
   ("-static", 0), ("-shared", 0), ("-s", 0), ("-rdynamic", 0),
   ("-l", 1), ("-L", 1), ("-u", 1), ("-z", 1), ("-T", 1), ("-Xlinker", 1),
   ("-nologo", 0), ("-EHsc", 0), ("-EHa", 0)]

/-!
## Data model and the command splitter

Exceptions that can escape the classification pipeline are modeled by
PipeError: mpiFailure stands for the RuntimeError raised by
get_mpi_call, stopIteration for next() on an exhausted iterator inside
_split_command (surfaced as RuntimeError out of the generator by
PEP 479), and noFuel is the modeling artifact that bounds the
unbounded recursion of _split_compiler through MPI expansion.
-/

inductive PipeError where
  | mpiFailure
  | noFuel
  | stopIteration
deriving DecidableEq, Repr

def C_LANG : Nat := 0
def CPLUSPLUS_LANG : Nat := 1
def FORTRAN_LANG : Nat := 2
def OTHER : Nat := 3

structure Execution where
  cwd : String
  cmd : List String
deriving DecidableEq, Repr

structure CompilationCommand where
  compiler : String
  language : Nat
  phase : List String
  flags : List String
  files : List String
  output : List String
deriving DecidableEq, Repr

structure Compilation where
  compiler : String
  language : Nat
  phase : String
  flags : List String
  directory : String
  source : String
  output : Option String
deriving DecidableEq, Repr

/-- Compilation.__init__: normalize the directory, make the source
absolute against it when it is relative (an absolute source is kept
verbatim). -/
def Compilation.make (compiler : String) (language : Nat) (phase : String)
    (flags : List String) (source directory : String)
    (output : Option String) : Compilation :=
  let d := normpath directory
  { compiler := compiler, language := language, phase := phase, flags := flags,
    directory := d,
    source := if isabs source then source else normpath (joinPath d source),
    output := output }

/-- Compilation.as_dict: the attribute dictionary with compiler,
output and language popped; the remaining insertion order is phase,
flags, directory, source. -/
def Compilation.as_dict (c : Compilation) : String × List String × String × String :=
  (c.phase, c.flags, c.directory, c.source)

/-- Compilation.__eq__ (the class test always holds in the model). -/
def Compilation.pyEq (a b : Compilation) : Bool := a.as_dict == b.as_dict

/-- str(self.as_dict()) up to the exact repr quoting, which is
irrelevant for hash consistency. -/
def Compilation.dictStr (c : Compilation) : String :=
  "phase: " ++ c.phase ++ ", flags: " ++ String.intercalate ", " c.flags ++
    ", directory: " ++ c.directory ++ ", source: " ++ c.source

/-- A deterministic stand-in for the per-process CPython string hash:
Compilation.__hash__ is hash(str(self.as_dict())), so any function of
dictStr models it faithfully for the consistency property. -/
def strHash (s : String) : Nat :=
  s.data.foldl (fun h c => (h * 31 + c.toNat) % (2 ^ 64)) 5381

def Compilation.pyHash (c : Compilation) : Nat := strHash c.dictStr

/-- The unescaping pass of shell_split (re.sub scanning left to
right). -/
def unescapeInner (special : List Char) : List Char → List Char
  | [] => []
  | '\\' :: c :: rest =>
    if c ∈ special then c :: unescapeInner special rest
    else '\\' :: unescapeInner special (c :: rest)
  | c :: rest => c :: unescapeInner special rest

def unescape (arg : String) : String :=
  let l := arg.data
  if 2 ≤ l.length ∧ l.head? = l.getLast? ∧ l.head? = some '"' then
    ⟨unescapeInner ['"', '\\'] ((l.drop 1).dropLast)⟩
  else
    ⟨unescapeInner
      ['\\', ' ', '$', '%', '&', '(', ')', '[', ']', '\x7b', '\x7d',
       '*', '|', '<', '>', '@', '?', '!'] l⟩

/-- shell_split: shlex.split modeled as whitespace splitting (the
quoting subtleties of shlex are not exercised by any claim), followed
by the unescape pass of the source. -/
def shell_split (s : String) : List String :=
  ((s.splitOn " ").filter (fun w => w ≠ "")).map unescape

/-- get_mpi_call over a sub-process oracle: runCmd returns none when
run_command raises (caught by the bare except and tried past), some
lines otherwise; only a nonempty line list satisfies the truthiness
test of the source.  Both queries failing raises RuntimeError, modeled
by PipeError.mpiFailure. -/
def get_mpi_call (runCmd : List String → Option (List String))
    (wrapper : String) : Except PipeError (List String) :=
  match runCmd [wrapper, "-show"] with
  | some (l0 :: _) => .ok (shell_split l0)
  | _ =>
    match runCmd [wrapper, "--showme"] with
    | some (l0 :: _) => .ok (shell_split l0)
    | _ => .error .mpiFailure

/-- Compilation._split_compiler.  The fuel argument bounds the
recursion, which the Python source leaves unbounded through MPI
expansion; every branch of the source decreases the measure except a
pathological resolver, and theorems quantify over any sufficient
fuel. -/
def splitCompiler (tools : Tools) (runCmd : List String → Option (List String)) :
    Nat → List String → Except PipeError (Option (String × Nat × List String))
  | _, [] => .ok none
  | 0, _ :: _ => .error .noFuel
  | fuel + 1, c0 :: parameters =>
    let executable := basename c0
    if Tools.is_wrapper executable then
      match splitCompiler tools runCmd fuel parameters with
      | .error e => .error e
      | .ok result => .ok (result <|> some (c0, C_LANG, parameters))
    else if Tools.is_mpi_wrapper executable then
      match get_mpi_call runCmd c0 with
      | .error e => .error e
      | .ok mpi_call => splitCompiler tools runCmd fuel (mpi_call ++ parameters)
    else if tools.is_c_compiler executable then .ok (some (c0, C_LANG, parameters))
    else if tools.is_cxx_compiler executable then .ok (some (c0, CPLUSPLUS_LANG, parameters))
    else if tools.is_fortran_compiler executable then .ok (some (c0, FORTRAN_LANG, parameters))
    else .ok none

/-- The re.match of option tokens against -(l|L|Wl,).+ (a dot does not
match a newline). -/
def dotPlus (t : List Char) : Bool :=
  match t with
  | [] => false
  | c :: _ => c ≠ '\n'

def isLinkerFlag (arg : String) : Bool :=
  match arg.data with
  | '-' :: 'l' :: t => dotPlus t
  | '-' :: 'L' :: t => dotPlus t
  | '-' :: 'W' :: 'l' :: ',' :: t => dotPlus t
  | _ => false

/-- The positional-argument test of _split_command: re.match of
[^-].+ together with a recognized source extension. -/
def looksLikeSource (arg : String) : Bool :=
  (match arg.data with
   | c0 :: c1 :: _ => decide (c0 ≠ '-') && decide (c1 ≠ '\n')
   | _ => false) && (classify_source arg true).isSome

/-- The preprocess-only, driver-internal and dry-run tokens whose
presence aborts the scan. -/
def isAbortToken (arg : String) : Bool :=
  ["-E", "-cc1", "-cc1as", "-M", "-MM", "-###"].contains arg

/-- The compile-phase tokens. -/
def isPhaseToken (arg : String) : Bool := ["-S", "-c"].contains arg

/-- The parameters that look like a filename and are taken together
with their following token. -/
def isPairedFlag (arg : String) : Bool :=
  ["-D", "-U", "-I", "-include"].contains arg

/-- The token loop of Compilation._split_command over the pull
iterator, accumulating into the CompilationCommand; the final check on
an empty files list is the trailing return of the source. -/
def scanArgs : List String → CompilationCommand → Except PipeError (Option CompilationCommand)
  | [], result => .ok (if result.files = [] then none else some result)
  | arg :: args, result =>
    if isAbortToken arg then .ok none
    else if isPhaseToken arg then
      scanArgs args { result with phase := result.phase ++ [arg] }
    else if (List.lookup arg IGNORED_FLAGS).isSome then
      -- every count in IGNORED_FLAGS is zero or one; range(count) pulls
      -- that many tokens from the iterator, raising past the end
      if (List.lookup arg IGNORED_FLAGS).getD 0 = 0 then scanArgs args result
      else
        match args with
        | [] => .error .stopIteration
        | _ :: rest => scanArgs rest result
    else if isLinkerFlag arg then scanArgs args result
    else if isPairedFlag arg then
      match args with
      | [] => .error .stopIteration
      | x :: rest => scanArgs rest { result with flags := result.flags ++ [arg, x] }
    else if arg = "-o" then
      match args with
      | [] => .error .stopIteration
      | x :: rest => scanArgs rest { result with output := result.output ++ [x] }
    else if looksLikeSource arg then
      scanArgs args { result with files := result.files ++ [arg] }
    else scanArgs args { result with flags := result.flags ++ [arg] }

/-- Compilation._split_command. -/
def splitCommand (tools : Tools) (runCmd : List String → Option (List String))
    (fuel : Nat) (command : List String) : Except PipeError (Option CompilationCommand) :=
  match splitCompiler tools runCmd fuel command with
  | .error e => .error e
  | .ok none => .ok none
  | .ok (some (compiler, language, args)) =>
    scanArgs args
      { compiler := compiler, language := language,
        phase := [], flags := [], files := [], output := [] }

/-- Compilation.iter_from_execution; fs models os.path.isfile. -/
def iterFromExecution (tools : Tools) (runCmd : List String → Option (List String))
    (fs : String → Bool) (fuel : Nat) (execution : Execution) :
    Except PipeError (List Compilation) :=
  match splitCommand tools runCmd fuel execution.cmd with
  | .error e => .error e
  | .ok none => .ok []
  | .ok (some candidate) =>
    .ok (candidate.files.filterMap (fun source =>
      let output := candidate.output.head?
      let phase := candidate.phase.headD "-c"
      let result := Compilation.make candidate.compiler candidate.language
        phase candidate.flags source execution.cwd output
      if fs result.source then some result else none))

/-!
## Database entries, persistence, and the trace decoder
-/

structure DbEntry where
  file : String
  arguments : List String
  directory : String
  outputField : Option String
deriving DecidableEq, Repr

/-- Compilation.as_db_entry.  The output segment is present only when
self.output is truthy (a nonempty string); the output key only when
the caller also asked for it. -/
def Compilation.as_db_entry (c : Compilation) (field_output : Bool) : DbEntry :=
  let source := relpath c.source c.directory
  match c.output with
  | some out =>
    if out = "" then
      { file := source,
        arguments := [c.compiler, c.phase] ++ c.flags ++ [source],
        directory := c.directory,
        outputField := none }
    else
      { file := source,
        arguments := [c.compiler, c.phase] ++ c.flags ++ ["-o", out] ++ [source],
        directory := c.directory,
        outputField := if field_output then some out else none }
  | none =>
    { file := source,
      arguments := [c.compiler, c.phase] ++ c.flags ++ [source],
      directory := c.directory,
      outputField := none }

/-- Compilation.from_db_entry: rebuild an Execution from the entry and
feed it through iter_from_execution.  Entries here always carry an
arguments array, as as_db_entry emits; the legacy command-string form
(shell_split of a command field) is not exercised by any claim. -/
def from_db_entry (entry : DbEntry) (tools : Tools)
    (runCmd : List String → Option (List String)) (fs : String → Bool)
    (fuel : Nat) : Except PipeError (List Compilation) :=
  iterFromExecution tools runCmd fs fuel ⟨entry.directory, entry.arguments⟩

/-- The Python set over Compilation values: membership decided by
__eq__ (hashing is consistent with it), materialized here in
first-insertion order. -/
def pySet (l : List Compilation) : List Compilation :=
  l.foldl (fun acc c => if acc.any (fun x => x.pyEq c) then acc else acc ++ [c]) []

/-- The append branch of intercept_build:
set(itertools.chain(previous, current)) where previous was loaded from
the existing database and current was captured. -/
def appendSave (previous current : List Compilation) : List Compilation :=
  pySet (previous ++ current)

/-!
### Trace decoder

parse_exec_trace works on the raw byte stream; strings stay byte
sequences (the utf-8 decode of the source is modeled as the identity,
its failure on invalid byte sequences is not exercised by any claim).
handler.read(n) returns up to n bytes, hence take and drop.  The
catch-all except of the source maps every internal raise to None.
-/

def strTag : List Nat := [115, 116, 114]

def lstTag : List Nat := [108, 115, 116]

/-- struct.unpack_from of a little-endian uint32; parse_length only
calls it once four bytes are known to be present. -/
def byteToNat : List Nat → Nat
  | [b0, b1, b2, b3] => b0 + 256 * b1 + 65536 * b2 + 16777216 * b3
  | _ => 0

/-- parse_length: three tag bytes, then a four-byte length; a tag
mismatch or a short length read raises (modeled none). -/
def parseLength (expected : List Nat) (bs : List Nat) : Option (Nat × List Nat) :=
  let tag := bs.take 3
  let r1 := bs.drop 3
  if tag ≠ expected then none
  else
    let lenB := r1.take 4
    let r2 := r1.drop 4
    if lenB.length < 4 then none
    else some (byteToNat lenB, r2)

/-- parse_string: a short payload read is returned as-is, exactly as
handler.read does. -/
def parseString (bs : List Nat) : Option (List Nat × List Nat) :=
  match parseLength strTag bs with
  | none => none
  | some (len, r) => some (r.take len, r.drop len)

def parseStrings : Nat → List Nat → Option (List (List Nat) × List Nat)
  | 0, bs => some ([], bs)
  | k + 1, bs =>
    match parseString bs with
    | none => none
    | some (s, r) =>
      match parseStrings k r with
      | none => none
      | some (ss, r2) => some (s :: ss, r2)

def parseStringList (bs : List Nat) : Option (List (List Nat) × List Nat) :=
  match parseLength lstTag bs with
  | none => none
  | some (count, r) => parseStrings count r

structure RawExecution where
  cwd : List Nat
  cmd : List (List Nat)
deriving DecidableEq, Repr

/-- parse_exec_trace: one string (cwd) then one string list (argv);
bytes after the two fields are never inspected. -/
def parse_exec_trace (bs : List Nat) : Option RawExecution :=
  match parseString bs with
  | none => none
  | some (cwd, r) =>
    match parseStringList r with
    | none => none
    | some (cmd, _) => some ⟨cwd, cmd⟩

/-- Modelled from the spec: the binary framing that the interception
library (libear, outside src/) writes; used to state what the decoder
accepts.  A field is a three-byte tag, a four-byte little-endian
length, then the payload. -/
def encodeLen (n : Nat) : List Nat :=
  [n % 256, n / 256 % 256, n / 65536 % 256, n / 16777216 % 256]

def encodeStr (s : List Nat) : List Nat := strTag ++ encodeLen s.length ++ s

def encodeList (xs : List (List Nat)) : List Nat :=
  lstTag ++ encodeLen xs.length ++ (xs.map encodeStr).flatten

/-- A token that makes the argument loop of _split_command pull a
following token from the iterator: an IGNORED_FLAGS key with positive
skip count, one of -D, -U, -I, -include, or the output flag. -/
def ConsumesNext (s : String) : Prop :=
  (∃ k, List.lookup s IGNORED_FLAGS = some (k + 1)) ∨
    isPairedFlag s = true ∨ s = "-o"

/-- The shape of a flags list as the argument loop accumulates it: a
sequence of chunks, each either a paired flag with the token it
consumed or a single token that fell through every earlier guard. -/
inductive GoodFlags : List String → Prop
  | nil : GoodFlags []
  | pair (d x : String) (rest : List String) : isPairedFlag d = true →
      GoodFlags rest → GoodFlags (d :: x :: rest)
  | single (f : String) (rest : List String) : isAbortToken f = false →
      isPhaseToken f = false → List.lookup f IGNORED_FLAGS = none →
      isLinkerFlag f = false → isPairedFlag f = false → f ≠ "-o" →
      looksLikeSource f = false → GoodFlags rest → GoodFlags (f :: rest)

/-- A clean path component: what survives normpath on an absolute
path. -/
def CleanComp (x : List Char) : Prop :=
  x ≠ [] ∧ x ≠ ['.'] ∧ x ≠ ['.', '.'] ∧ '/' ∉ x

/-- The pull loop of _split_command viewed on the raw token list:
Scanned l r holds when the loop, started on the arguments l, later has
exactly the suffix r left to pull, every earlier token having been
taken from the iterator at a scanned position.  A non-abort token that
pulls its successor from the iterator (-o, a paired flag, or an
IGNORED_FLAGS key with positive skip count) advances by two; every
other non-abort token advances by one. -/
inductive Scanned : List String → List String → Prop
  | refl (l : List String) : Scanned l l
  | step1 (x : String) (l r : List String) : isAbortToken x = false →
      ¬ ConsumesNext x → Scanned l r → Scanned (x :: l) r
  | step2 (x y : String) (l r : List String) : isAbortToken x = false →
      ConsumesNext x → Scanned l r → Scanned (x :: y :: l) r

/-!
## Lemmas about the path model
-/

theorem splitSlash_ne_nil (l : List Char) : splitSlash l ≠ [] := by
  cases l with
  | nil => simp [splitSlash]
  | cons c rest =>
    simp only [splitSlash]
    split
    · simp
    · split <;> simp

theorem mem_splitSlash_no_slash (l : List Char) :
    ∀ x ∈ splitSlash l, '/' ∉ x := by
  induction l with
  | nil => intro x hx; simp [splitSlash] at hx; simp [hx]
  | cons c rest ih =>
    intro x hx
    simp only [splitSlash] at hx
    by_cases hc : c = '/'
    · rw [if_pos hc] at hx
      rcases List.mem_cons.mp hx with h | h
      · subst h; simp
      · exact ih x h
    · rw [if_neg hc] at hx
      rcases hsplit : splitSlash rest with _ | ⟨h0, t0⟩
      · exact absurd hsplit (splitSlash_ne_nil rest)
      · rw [hsplit] at hx
        rcases List.mem_cons.mp hx with h | h
        · subst h
          intro hmem
          rcases List.mem_cons.mp hmem with h2 | h2
          · exact hc h2.symm
          · have hm0 : h0 ∈ splitSlash rest := by
              rw [hsplit]; exact List.mem_cons_self h0 t0
            exact ih h0 hm0 h2
        · have hmx : x ∈ splitSlash rest := by
            rw [hsplit]; exact List.mem_cons_of_mem h0 h
          exact ih x hmx

theorem splitSlash_cons_slash (rest : List Char) :
    splitSlash ('/' :: rest) = [] :: splitSlash rest := by
  simp [splitSlash]

theorem splitSlash_append_slash (a rest : List Char) (h : '/' ∉ a) :
    splitSlash (a ++ '/' :: rest) = a :: splitSlash rest := by
  induction a with
  | nil => simp [splitSlash]
  | cons c a2 ih =>
    have hc : c ≠ '/' := by
      intro hcc; exact h (hcc ▸ List.mem_cons_self c a2)
    have ha2 : '/' ∉ a2 := fun hm => h (List.mem_cons_of_mem c hm)
    show splitSlash (c :: (a2 ++ '/' :: rest)) = _
    simp only [splitSlash]
    rw [if_neg hc, ih ha2]

theorem splitSlash_no_slash (a : List Char) (h : '/' ∉ a) :
    splitSlash a = [a] := by
  induction a with
  | nil => simp [splitSlash]
  | cons c a2 ih =>
    have hc : c ≠ '/' := by
      intro hcc; exact h (hcc ▸ List.mem_cons_self c a2)
    have ha2 : '/' ∉ a2 := fun hm => h (List.mem_cons_of_mem c hm)
    simp only [splitSlash, if_neg hc, ih ha2]

theorem splitSlash_intercalate (comps : List (List Char))
    (h1 : comps ≠ []) (h2 : ∀ x ∈ comps, '/' ∉ x) :
    splitSlash (List.intercalate ['/'] comps) = comps := by
  induction comps with
  | nil => exact absurd rfl h1
  | cons a rest ih =>
    cases rest with
    | nil =>
      rw [show List.intercalate ['/'] [a] = a by simp [List.intercalate]]
      exact splitSlash_no_slash a (h2 a (List.mem_cons_self a []))
    | cons b t =>
      have hstep : List.intercalate ['/'] (a :: b :: t) =
          a ++ '/' :: List.intercalate ['/'] (b :: t) := by
        simp [List.intercalate, List.intersperse_cons_cons]
      rw [hstep,
        splitSlash_append_slash a _ (h2 a (List.mem_cons_self a _)),
        ih (by simp) (fun x hx => h2 x (List.mem_cons_of_mem a hx))]

theorem normParts_clean (comps : List (List Char)) :
    ∀ acc, (∀ x ∈ acc, CleanComp x) → (∀ x ∈ comps, '/' ∉ x) →
      ∀ x ∈ normParts true acc comps, CleanComp x := by
  induction comps with
  | nil =>
    intro acc hacc _ x hx
    exact hacc x (by simpa [normParts] using hx)
  | cons comp rest ih =>
    intro acc hacc hcomps x hx
    have hrest : ∀ y ∈ rest, '/' ∉ y :=
      fun y hy => hcomps y (List.mem_cons_of_mem comp hy)
    simp only [normParts] at hx
    by_cases h1 : comp = [] ∨ comp = ['.']
    · rw [if_pos h1] at hx
      exact ih acc hacc hrest x hx
    · rw [if_neg h1] at hx
      by_cases h2 : comp ≠ ['.', '.'] ∨ (true = false ∧ acc = []) ∨
          (acc ≠ [] ∧ acc.getLast? = some ['.', '.'])
      · rw [if_pos h2] at hx
        have hcc : CleanComp comp := by
          rcases h2 with hne | hfa | hlast
          · refine ⟨?_, ?_, hne, hcomps comp (List.mem_cons_self comp rest)⟩
            · intro he; exact h1 (Or.inl he)
            · intro he; exact h1 (Or.inr he)
          · exact absurd hfa.1 (by simp)
          · exact absurd rfl
              ((hacc _ (List.mem_of_mem_getLast? hlast.2)).2.2.1)
        refine ih (acc ++ [comp]) ?_ hrest x hx
        intro y hy
        rcases List.mem_append.mp hy with hy2 | hy2
        · exact hacc y hy2
        · rw [List.mem_singleton.mp hy2]; exact hcc
      · rw [if_neg h2] at hx
        by_cases h3 : acc ≠ []
        · rw [if_pos h3] at hx
          exact ih acc.dropLast
            (fun y hy => hacc y (List.dropLast_subset acc hy)) hrest x hx
        · rw [if_neg h3] at hx
          exact ih acc hacc hrest x hx

theorem normParts_clean_append (comps : List (List Char)) :
    ∀ acc, (∀ x ∈ comps, CleanComp x) → normParts true acc comps = acc ++ comps := by
  induction comps with
  | nil => intro acc _; simp [normParts]
  | cons comp rest ih =>
    intro acc hclean
    have hc := hclean comp (List.mem_cons_self comp rest)
    simp only [normParts]
    rw [if_neg (by
      intro h; rcases h with h | h
      · exact hc.1 h
      · exact hc.2.1 h)]
    rw [if_pos (Or.inl hc.2.2.1)]
    rw [ih (acc ++ [comp]) (fun y hy => hclean y (List.mem_cons_of_mem comp hy))]
    simp

theorem normpathChars_abs (l : List Char) (h : l.head? = some '/') :
    normpathChars l =
      (if (l.take 2 == ['/', '/']) && !(l.take 3 == ['/', '/', '/'])
        then ['/', '/'] else ['/']) ++
        List.intercalate ['/'] (normParts true [] (splitSlash l)) := by
  have hne : l ≠ [] := by intro he; rw [he] at h; exact Option.noConfusion h
  have habs : (l.head? == some '/') = true := by rw [h]; rfl
  simp only [normpathChars, if_neg hne, habs, if_true]
  cases hdbl : ((l.take 2 == ['/', '/']) && !(l.take 3 == ['/', '/', '/'])) with
  | false => simp
  | true => simp

theorem normParts_skip_nil (abs : Bool) (acc rest : List (List Char)) :
    normParts abs acc ([] :: rest) = normParts abs acc rest := by
  conv_lhs => rw [normParts]
  rw [if_pos (Or.inl rfl)]

theorem intercalate_head (c : List Char) (cs : List (List Char)) (ch : Char)
    (ct : List Char) (hc : c = ch :: ct) :
    ∃ tail, List.intercalate ['/'] (c :: cs) = ch :: tail := by
  cases cs with
  | nil =>
    refine ⟨ct, ?_⟩
    rw [show List.intercalate ['/'] [c] = c from by simp [List.intercalate], hc]
  | cons d t =>
    refine ⟨ct ++ '/' :: List.intercalate ['/'] (d :: t), ?_⟩
    rw [show List.intercalate ['/'] (c :: d :: t) =
        c ++ '/' :: List.intercalate ['/'] (d :: t) from by
      simp [List.intercalate, List.intersperse_cons_cons], hc]
    simp

theorem normpathChars_idem (l : List Char) (h : l.head? = some '/') :
    normpathChars (normpathChars l) = normpathChars l := by
  have hclean : ∀ x ∈ normParts true [] (splitSlash l), CleanComp x :=
    normParts_clean (splitSlash l) [] (by simp) (mem_splitSlash_no_slash l)
  rw [normpathChars_abs l h]
  set comps := normParts true [] (splitSlash l) with hcdef
  cases hdbl : ((l.take 2 == ['/', '/']) && !(l.take 3 == ['/', '/', '/'])) with
  | false =>
    simp only [Bool.false_eq_true, if_false]
    cases hc : comps with
    | nil => simp [List.intercalate]; decide
    | cons c cs =>
      have hallc : ∀ x ∈ c :: cs, CleanComp x := fun x hx => hclean x (hc ▸ hx)
      have hcc : CleanComp c := hallc c (List.mem_cons_self c cs)
      obtain ⟨ch, ct, hchct⟩ : ∃ ch ct, c = ch :: ct := by
        cases c with
        | nil => exact absurd rfl hcc.1
        | cons a b => exact ⟨a, b, rfl⟩
      have hch : ch ≠ '/' := by
        intro he
        exact hcc.2.2.2 (by rw [hchct, he]; exact List.mem_cons_self _ _)
      obtain ⟨tail, htail⟩ := intercalate_head c cs ch ct hchct
      have hout : ['/'] ++ List.intercalate ['/'] (c :: cs) = '/' :: ch :: tail := by
        rw [htail]; rfl
      rw [hout]
      rw [normpathChars_abs ('/' :: ch :: tail) rfl]
      have hd2 : ((('/' : Char) :: ch :: tail).take 2 == ['/', '/']) = false := by
        simp [hch]
      rw [hd2]
      simp only [Bool.false_and, Bool.false_eq_true, if_false]
      have hsplit : splitSlash ('/' :: ch :: tail) = [] :: (c :: cs) := by
        rw [splitSlash_cons_slash (ch :: tail)]
        congr 1
        rw [show ch :: tail = List.intercalate ['/'] (c :: cs) from htail.symm]
        exact splitSlash_intercalate (c :: cs) (by simp)
          (fun x hx => (hallc x hx).2.2.2)
      rw [hsplit]
      have hnp : normParts true [] ([] :: c :: cs) = c :: cs := by
        rw [normParts_skip_nil]
        exact normParts_clean_append (c :: cs) [] hallc
      rw [hnp, htail]
      rfl
  | true =>
    simp only [if_true]
    cases hc : comps with
    | nil => simp [List.intercalate]; decide
    | cons c cs =>
      have hallc : ∀ x ∈ c :: cs, CleanComp x := fun x hx => hclean x (hc ▸ hx)
      have hcc : CleanComp c := hallc c (List.mem_cons_self c cs)
      obtain ⟨ch, ct, hchct⟩ : ∃ ch ct, c = ch :: ct := by
        cases c with
        | nil => exact absurd rfl hcc.1
        | cons a b => exact ⟨a, b, rfl⟩
      have hch : ch ≠ '/' := by
        intro he
        exact hcc.2.2.2 (by rw [hchct, he]; exact List.mem_cons_self _ _)
      obtain ⟨tail, htail⟩ := intercalate_head c cs ch ct hchct
      have hout : ['/', '/'] ++ List.intercalate ['/'] (c :: cs) =
          '/' :: '/' :: ch :: tail := by
        rw [htail]; rfl
      rw [hout]
      rw [normpathChars_abs ('/' :: '/' :: ch :: tail) rfl]
      have hd2 : ((('/' : Char) :: '/' :: ch :: tail).take 2 == ['/', '/']) = true := by
        simp
      have hd3 : ((('/' : Char) :: '/' :: ch :: tail).take 3 == ['/', '/', '/']) = false := by
        simp [hch]
      rw [hd2, hd3]
      simp only [Bool.not_false, Bool.true_and, if_true]
      have hsplit : splitSlash ('/' :: '/' :: ch :: tail) = [] :: [] :: (c :: cs) := by
        rw [splitSlash_cons_slash ('/' :: ch :: tail),
          splitSlash_cons_slash (ch :: tail)]
        congr 2
        rw [show ch :: tail = List.intercalate ['/'] (c :: cs) from htail.symm]
        exact splitSlash_intercalate (c :: cs) (by simp)
          (fun x hx => (hallc x hx).2.2.2)
      rw [hsplit]
      have hnp : normParts true [] ([] :: [] :: c :: cs) = c :: cs := by
        rw [normParts_skip_nil, normParts_skip_nil]
        exact normParts_clean_append (c :: cs) [] hallc
      rw [hnp, htail]
      rfl

theorem head?_normpathChars (l : List Char) (h : l.head? = some '/') :
    (normpathChars l).head? = some '/' := by
  rw [normpathChars_abs l h]
  split <;> rfl

theorem isabs_head (s : String) (h : isabs s = true) : s.data.head? = some '/' := by
  simpa [isabs] using h

theorem isabs_normpath (s : String) (h : isabs s = true) :
    isabs (normpath s) = true := by
  have := head?_normpathChars s.data (isabs_head s h)
  simp [isabs, normpath, this]

theorem isNormalized_normpath (s : String) (h : isabs s = true) :
    IsNormalized (normpath s) := by
  show normpath (normpath s) = normpath s
  show (⟨normpathChars (normpathChars s.data)⟩ : String) = ⟨normpathChars s.data⟩
  exact congrArg String.mk (normpathChars_idem s.data (isabs_head s h))

theorem isabs_joinPath (a b : String) (ha : isabs a = true) (hb : isabs b = false) :
    isabs (joinPath a b) = true := by
  obtain ⟨t, hdat⟩ : ∃ t, a.data = '/' :: t := by
    have hh := isabs_head a ha
    rcases hd : a.data with _ | ⟨c, t⟩
    · rw [hd] at hh; exact Option.noConfusion hh
    · rw [hd] at hh
      have hc : c = '/' := Option.some_inj.mp (by simpa using hh)
      exact ⟨t, by rw [hc]⟩
  rw [joinPath, if_neg (by rw [hb]; simp)]
  split
  · show ((⟨a.data ++ b.data⟩ : String).data.head? == some '/') = true
    rw [show (⟨a.data ++ b.data⟩ : String).data = a.data ++ b.data from rfl, hdat]
    rfl
  · show ((⟨a.data ++ '/' :: b.data⟩ : String).data.head? == some '/') = true
    rw [show (⟨a.data ++ '/' :: b.data⟩ : String).data = a.data ++ '/' :: b.data from rfl,
      hdat]
    rfl

/-!
## Lemmas about the pipeline
-/

theorem make_directory (compiler : String) (language : Nat) (phase : String)
    (flags : List String) (source directory : String) (output : Option String) :
    (Compilation.make compiler language phase flags source directory output).directory =
      normpath directory := rfl

theorem make_source (compiler : String) (language : Nat) (phase : String)
    (flags : List String) (source directory : String) (output : Option String) :
    (Compilation.make compiler language phase flags source directory output).source =
      (if isabs source then source
       else normpath (joinPath (normpath directory) source)) := rfl

theorem mem_iterFromExecution (tools : Tools)
    (runCmd : List String → Option (List String)) (fs : String → Bool)
    (fuel : Nat) (e : Execution) (l : List Compilation) (c : Compilation)
    (hrun : iterFromExecution tools runCmd fs fuel e = .ok l) (hc : c ∈ l) :
    ∃ cand src, splitCommand tools runCmd fuel e.cmd = .ok (some cand) ∧
      src ∈ cand.files ∧
      c = Compilation.make cand.compiler cand.language (cand.phase.headD "-c")
        cand.flags src e.cwd cand.output.head? ∧
      fs c.source = true := by
  unfold iterFromExecution at hrun
  rcases hsc : splitCommand tools runCmd fuel e.cmd with err | o
  · rw [hsc] at hrun; exact absurd hrun (by simp)
  · rw [hsc] at hrun
    cases o with
    | none =>
      simp only [Except.ok.injEq] at hrun
      rw [← hrun] at hc
      exact absurd hc (by simp)
    | some cand =>
      simp only [Except.ok.injEq] at hrun
      rw [← hrun] at hc
      obtain ⟨src, hsrc, hf⟩ := List.mem_filterMap.mp hc
      by_cases hfs : fs (Compilation.make cand.compiler cand.language
          (cand.phase.headD "-c") cand.flags src e.cwd cand.output.head?).source
      · rw [if_pos hfs] at hf
        refine ⟨cand, src, hsc.symm ▸ rfl, hsrc, (Option.some_inj.mp hf).symm, ?_⟩
        rw [← Option.some_inj.mp hf]
        exact hfs
      · rw [if_neg hfs] at hf
        exact Option.noConfusion hf

/-!
## Claim C4
-/

/-- C4 (amended): every Compilation emitted by iter_from_execution for
an Execution with absolute cwd has an absolute, normpath-fixed
directory and an absolute source that the filesystem oracle reports
existing; the source token the scanner collected determines the stored
source exactly as Compilation.__init__ does: a relative token is
joined to the directory and normpath-normalized (so the stored source
is normpath-fixed), while an already absolute token is stored
verbatim, non-normalized forms included. -/
theorem c4_emitted_paths (tools : Tools)
    (runCmd : List String → Option (List String)) (fs : String → Bool)
    (fuel : Nat) (e : Execution) (l : List Compilation) (c : Compilation)
    (hcwd : isabs e.cwd = true)
    (hrun : iterFromExecution tools runCmd fs fuel e = .ok l) (hc : c ∈ l) :
    isabs c.directory = true ∧ IsNormalized c.directory ∧
      isabs c.source = true ∧ fs c.source = true ∧
      ∃ cand src, splitCommand tools runCmd fuel e.cmd = .ok (some cand) ∧
        src ∈ cand.files ∧
        c.source = (if isabs src = true then src
          else normpath (joinPath (normpath e.cwd) src)) ∧
        (isabs src = false → IsNormalized c.source) ∧
        (isabs src = true → c.source = src) := by
  obtain ⟨cand, src, hsc, hmem, hmk, hfs⟩ :=
    mem_iterFromExecution tools runCmd fs fuel e l c hrun hc
  refine ⟨?_, ?_, ?_, hfs, cand, src, hsc, hmem, ?_, ?_, ?_⟩
  · rw [hmk, make_directory]; exact isabs_normpath e.cwd hcwd
  · rw [hmk, make_directory]; exact isNormalized_normpath e.cwd hcwd
  · rw [hmk, make_source]
    by_cases habs : isabs src = true
    · rw [if_pos habs]; exact habs
    · rw [if_neg (by simp [habs])]
      exact isabs_normpath _
        (isabs_joinPath _ src (isabs_normpath e.cwd hcwd)
          (Bool.not_eq_true _ ▸ habs))
  · rw [hmk, make_source]
  · intro habs
    rw [hmk, make_source, if_neg (by simp [habs])]
    exact isNormalized_normpath _
      (isabs_joinPath _ src (isabs_normpath e.cwd hcwd) habs)
  · intro habs
    rw [hmk, make_source, if_pos habs]

/-- C4 witness: the amended statement on a concrete compile of the
relative token a.c under /p: directory and source are absolute and
normalized, the source exists, and the source-token clause applies its
relative case to yield the normalization of /p/a.c. -/
theorem c4_emitted_paths_witness :
    isabs "/p" = true ∧ IsNormalized "/p" ∧ isabs "/p/a.c" = true ∧
      (fun s => s == "/p/a.c") "/p/a.c" = true ∧ IsNormalized "/p/a.c" := by
  have hrun : iterFromExecution defaultTools (fun _ => none)
      (fun s => s == "/p/a.c") 8 ⟨"/p", ["gcc", "-c", "a.c"]⟩ =
      .ok [{ compiler := "gcc", language := 0, phase := "-c", flags := [],
             directory := "/p", source := "/p/a.c", output := none }] := rfl
  have h := c4_emitted_paths defaultTools (fun _ => none) (fun s => s == "/p/a.c")
    8 ⟨"/p", ["gcc", "-c", "a.c"]⟩ _ _ (by decide) hrun (List.mem_singleton.mpr rfl)
  obtain ⟨cand, src, hsc, hmem, _, hrelcase, _⟩ := h.2.2.2.2
  have hconc : splitCommand defaultTools (fun _ => none) 8
      ["gcc", "-c", "a.c"] =
      .ok (some { compiler := "gcc", language := 0, phase := ["-c"],
                  flags := [], files := ["a.c"],
                  output := [] }) := rfl
  have hcand : cand = { compiler := "gcc", language := 0, phase := ["-c"],
                        flags := [], files := ["a.c"], output := [] } := by
    have h1 : (Except.ok (some cand) :
        Except PipeError (Option CompilationCommand)) =
        .ok (some { compiler := "gcc", language := 0, phase := ["-c"],
                    flags := [], files := ["a.c"],
                    output := [] }) := by
      rw [← hsc, hconc]
    injection h1 with h2
    injection h2
  rw [hcand] at hmem
  have hsrc : src = "a.c" := List.mem_singleton.mp hmem
  have hnorm : IsNormalized "/p/a.c" := hrelcase (by rw [hsrc]; decide)
  exact ⟨h.1, h.2.1, h.2.2.1, h.2.2.2.1, hnorm⟩

/-- C4 counterexample: the claim requires the emitted source to be
normalized even when it was given as an absolute path, but the
execution below emits a record whose source keeps the dot-dot
segment verbatim. -/
theorem c4_counterexample :
    iterFromExecution defaultTools (fun _ => none)
      (fun s => (s == "/x/../y/a.c") || (s == "/y/a.c")) 8
      ⟨"/p", ["gcc", "-c", "/x/../y/a.c"]⟩ =
      .ok [{ compiler := "gcc", language := 0, phase := "-c", flags := [],
             directory := "/p", source := "/x/../y/a.c", output := none }] ∧
    ¬ IsNormalized "/x/../y/a.c" := by
  constructor
  · rfl
  · intro h
    have : normpath "/x/../y/a.c" = "/x/../y/a.c" := h
    have hfalse : (normpath "/x/../y/a.c" == "/x/../y/a.c") = false := by decide
    rw [this] at hfalse
    simp at hfalse

/-!
## Claim C1
-/

/-- C1 (amended): for an Execution with cwd d and argv
[ccache, distcc, g++, -c, a.cpp], with d/a.cpp existing and the
default Tools, iter_from_execution yields exactly one Compilation with
language CXX, source d/a.cpp normalized, phase -c and empty flags, but
whose compiler is g++: peeling wrappers returns the innermost
recognized compiler argv[0], not the outermost wrapper. -/
theorem c1_wrapper_peeling (d : String) (fs : String → Bool)
    (runCmd : List String → Option (List String))
    (hfs : fs (normpath (joinPath (normpath d) "a.cpp")) = true) :
    iterFromExecution defaultTools runCmd fs 8
        ⟨d, ["ccache", "distcc", "g++", "-c", "a.cpp"]⟩ =
      .ok [{ compiler := "g++", language := CPLUSPLUS_LANG, phase := "-c",
             flags := [], directory := normpath d,
             source := normpath (joinPath (normpath d) "a.cpp"),
             output := none }] := by
  unfold iterFromExecution
  rw [show splitCommand defaultTools runCmd 8
      ["ccache", "distcc", "g++", "-c", "a.cpp"] =
      .ok (some { compiler := "g++", language := CPLUSPLUS_LANG,
                  phase := ["-c"], flags := [], files := ["a.cpp"],
                  output := [] }) from rfl]
  simp only [List.filterMap_cons, List.filterMap_nil, Compilation.make,
    show isabs "a.cpp" = false from rfl, Bool.false_eq_true, if_false,
    show (["-c"] : List String).headD "-c" = "-c" from rfl,
    show ([] : List String).head? = none from rfl]
  rw [show fs (normpath (joinPath (normpath d) "a.cpp")) = true from hfs]
  rfl

/-- C1 witness: the amended statement at d = /p with a filesystem
containing /p/a.cpp. -/
theorem c1_wrapper_peeling_witness :
    iterFromExecution defaultTools (fun _ => none) (fun s => s == "/p/a.cpp") 8
        ⟨"/p", ["ccache", "distcc", "g++", "-c", "a.cpp"]⟩ =
      .ok [{ compiler := "g++", language := CPLUSPLUS_LANG, phase := "-c",
             flags := [], directory := normpath "/p",
             source := normpath (joinPath (normpath "/p") "a.cpp"),
             output := none }] :=
  c1_wrapper_peeling "/p" (fun s => s == "/p/a.cpp") (fun _ => none) rfl

/-- C1 counterexample: at cwd /p the emitted compiler field is g++,
not the outermost wrapper ccache the claim requires. -/
theorem c1_counterexample :
    iterFromExecution defaultTools (fun _ => none) (fun s => s == "/p/a.cpp") 8
        ⟨"/p", ["ccache", "distcc", "g++", "-c", "a.cpp"]⟩ =
      .ok [{ compiler := "g++", language := 1, phase := "-c", flags := [],
             directory := "/p", source := "/p/a.cpp", output := none }] ∧
    ("g++" : String) ≠ "ccache" :=
  ⟨rfl, by decide⟩

/-!
## Claim C2
-/

/-- C2 (amended): when both resolver queries fail for an Execution
headed by an MPI wrapper, get_mpi_call raises RuntimeError and the
exception propagates out of iter_from_execution, aborting the run
(command_entry_point catches only OSError and CalledProcessError):
the execution is not quietly skipped. -/
theorem c2_mpi_failure_propagates (tools : Tools) (fs : String → Bool)
    (runCmd : List String → Option (List String)) (cwd w : String)
    (rest : List String) (n : Nat)
    (hmpi : Tools.is_mpi_wrapper (basename w) = true)
    (hwrap : Tools.is_wrapper (basename w) = false)
    (hshow : runCmd [w, "-show"] = none ∨ runCmd [w, "-show"] = some [])
    (hshowme : runCmd [w, "--showme"] = none ∨ runCmd [w, "--showme"] = some []) :
    iterFromExecution tools runCmd fs (n + 1) ⟨cwd, w :: rest⟩ =
      .error .mpiFailure := by
  have hmpicall : get_mpi_call runCmd w = .error .mpiFailure := by
    unfold get_mpi_call
    rcases hshow with h | h <;> rw [h] <;> rcases hshowme with h2 | h2 <;> rw [h2]
  have hsplit : splitCompiler tools runCmd (n + 1) (w :: rest) =
      .error .mpiFailure := by
    simp only [splitCompiler, hwrap, hmpi, hmpicall, Bool.false_eq_true,
      if_false, if_true]
  unfold iterFromExecution splitCommand
  rw [hsplit]

/-- C2 witness: the amended statement on mpicc with a resolver that
fails every query. -/
theorem c2_mpi_failure_propagates_witness :
    iterFromExecution defaultTools (fun _ => none) (fun _ => true) (7 + 1)
      ⟨"/p", "mpicc" :: ["-c", "a.c"]⟩ = .error .mpiFailure :=
  c2_mpi_failure_propagates defaultTools (fun _ => true) (fun _ => none)
    "/p" "mpicc" ["-c", "a.c"] 7 (by decide) (by decide)
    (Or.inl rfl) (Or.inl rfl)

/-- C2 counterexample: with both queries failing, iter_from_execution
for [mpicc, -c, a.c] is an error, not the empty yield the claim
requires. -/
theorem c2_counterexample :
    iterFromExecution defaultTools (fun _ => none) (fun _ => true) 8
        ⟨"/p", ["mpicc", "-c", "a.c"]⟩ = .error .mpiFailure ∧
    (Except.error PipeError.mpiFailure ≠
      (Except.ok [] : Except PipeError (List Compilation))) :=
  ⟨rfl, by simp⟩

/-!
## Claim C10
-/

/-- C10: a recognized compiler call whose argument stream ends with a
token that demands a following argument makes the scan pull from an
exhausted iterator: the pipeline aborts with the exception instead of
returning a CompilationCommand or None; shown for -o, -D and -MF. -/
theorem c10_trailing_option_raises :
    iterFromExecution defaultTools (fun _ => none) (fun _ => true) 8
        ⟨"/p", ["gcc", "a.c", "-o"]⟩ = .error .stopIteration ∧
    iterFromExecution defaultTools (fun _ => none) (fun _ => true) 8
        ⟨"/p", ["gcc", "a.c", "-D"]⟩ = .error .stopIteration ∧
    iterFromExecution defaultTools (fun _ => none) (fun _ => true) 8
        ⟨"/p", ["gcc", "a.c", "-MF"]⟩ = .error .stopIteration :=
  ⟨rfl, rfl, rfl⟩

/-!
## Claim C5
-/

/-- C5: two Compilation values are equal exactly when their
(directory, source, phase, flags) tuples are equal, so compiler,
output and language play no role, and the hash is consistent with this
equality. -/
theorem c5_eq_iff_key_and_hash (a b : Compilation) :
    (a.pyEq b = true ↔
      (a.directory, a.source, a.phase, a.flags) =
        (b.directory, b.source, b.phase, b.flags)) ∧
    (a.pyEq b = true → a.pyHash = b.pyHash) := by
  have hdict : a.pyEq b = true ↔
      a.phase = b.phase ∧ a.flags = b.flags ∧
        a.directory = b.directory ∧ a.source = b.source := by
    unfold Compilation.pyEq Compilation.as_dict
    rw [beq_iff_eq]
    simp [Prod.ext_iff]
  constructor
  · rw [hdict]
    constructor
    · rintro ⟨h1, h2, h3, h4⟩; simp [h1, h2, h3, h4]
    · intro h; simp [Prod.ext_iff] at h; tauto
  · intro h
    obtain ⟨h1, h2, h3, h4⟩ := hdict.mp h
    unfold Compilation.pyHash Compilation.dictStr
    rw [h1, h2, h3, h4]

/-- C5 witness: two records differing only in compiler, language and
output are equal and hash alike. -/
theorem c5_eq_iff_key_and_hash_witness :
    (Compilation.pyEq
        { compiler := "gcc", language := 0, phase := "-c", flags := ["-O2"],
          directory := "/p", source := "/p/a.c", output := none }
        { compiler := "clang", language := 1, phase := "-c", flags := ["-O2"],
          directory := "/p", source := "/p/a.c", output := some "a.o" } = true) ∧
    Compilation.pyHash
        { compiler := "gcc", language := 0, phase := "-c", flags := ["-O2"],
          directory := "/p", source := "/p/a.c", output := none } =
      Compilation.pyHash
        { compiler := "clang", language := 1, phase := "-c", flags := ["-O2"],
          directory := "/p", source := "/p/a.c", output := some "a.o" } :=
  ⟨by decide,
    (c5_eq_iff_key_and_hash
      { compiler := "gcc", language := 0, phase := "-c", flags := ["-O2"],
        directory := "/p", source := "/p/a.c", output := none }
      { compiler := "clang", language := 1, phase := "-c", flags := ["-O2"],
        directory := "/p", source := "/p/a.c", output := some "a.o" }).2
      (by decide)⟩

/-!
## Claim C7
-/

theorem byteToNat_encodeLen (n : Nat) (h : n < 4294967296) :
    byteToNat (encodeLen n) = n := by
  show n % 256 + 256 * (n / 256 % 256) + 65536 * (n / 65536 % 256) +
      16777216 * (n / 16777216 % 256) = n
  omega

theorem parseLength_encode (expected : List Nat) (n : Nat) (r : List Nat)
    (hexp : expected.length = 3) (h : n < 4294967296) :
    parseLength expected (expected ++ encodeLen n ++ r) = some (n, r) := by
  unfold parseLength
  rw [List.append_assoc, List.take_left' hexp, if_neg (by simp),
    List.drop_left' hexp, List.take_left' (show (encodeLen n).length = 4 from rfl),
    List.drop_left' (show (encodeLen n).length = 4 from rfl)]
  rw [if_neg (by simp [encodeLen]), byteToNat_encodeLen n h]

theorem parseString_encode (s r : List Nat) (h : s.length < 4294967296) :
    parseString (encodeStr s ++ r) = some (s, r) := by
  unfold parseString encodeStr
  rw [List.append_assoc (strTag ++ encodeLen s.length) s r,
    parseLength_encode strTag s.length (s ++ r) rfl h]
  show some ((s ++ r).take s.length, (s ++ r).drop s.length) = some (s, r)
  rw [List.take_left s r, List.drop_left s r]

theorem parseStrings_encode (xs : List (List Nat)) (r : List Nat)
    (h : ∀ x ∈ xs, x.length < 4294967296) :
    parseStrings xs.length ((xs.map encodeStr).flatten ++ r) = some (xs, r) := by
  induction xs generalizing r with
  | nil => rfl
  | cons x xs ih =>
    have hx := h x (List.mem_cons_self x xs)
    have hxs := fun y hy => h y (List.mem_cons_of_mem x hy)
    show parseStrings (xs.length + 1)
        ((encodeStr x ++ (xs.map encodeStr).flatten) ++ r) = some (x :: xs, r)
    rw [List.append_assoc]
    show (match parseString (encodeStr x ++ ((xs.map encodeStr).flatten ++ r)) with
          | none => none
          | some (s, r2) =>
            match parseStrings xs.length r2 with
            | none => none
            | some (ss, r3) => some (s :: ss, r3)) = some (x :: xs, r)
    rw [parseString_encode x _ hx]
    show (match parseStrings xs.length ((xs.map encodeStr).flatten ++ r) with
          | none => none
          | some (ss, r3) => some (x :: ss, r3)) = some (x :: xs, r)
    rw [ih r hxs]

/-- C7 (amended): parse_exec_trace never raises (every internal raise
is caught and surfaced as None); it accepts one STRING (cwd) followed
by one LIST of STRINGs (argv) and returns None when a three-byte type
tag mismatches or a length-word read is short, but it does not reject
extra content after the two fields (there is no EOF check) and a short
payload read is returned as-is rather than rejected. -/
theorem c7_decoder_behavior (cwd : List Nat) (argv : List (List Nat))
    (junk : List Nat)
    (hcwd : cwd.length < 4294967296) (hargv : argv.length < 4294967296)
    (helem : ∀ s ∈ argv, s.length < 4294967296) :
    parse_exec_trace (encodeStr cwd ++ encodeList argv ++ junk) =
      some ⟨cwd, argv⟩ ∧
    (∀ bs : List Nat, bs.take 3 ≠ strTag → parse_exec_trace bs = none) ∧
    (∀ short : List Nat, short.length < 4 →
      parse_exec_trace (strTag ++ short) = none) := by
  refine ⟨?_, ?_, ?_⟩
  · unfold parse_exec_trace
    rw [List.append_assoc, parseString_encode cwd _ hcwd]
    show (match parseStringList (encodeList argv ++ junk) with
          | none => none
          | some (cmd, _) => some (RawExecution.mk cwd cmd)) =
      some (RawExecution.mk cwd argv)
    have hl : parseStringList (encodeList argv ++ junk) = some (argv, junk) := by
      unfold parseStringList encodeList
      rw [List.append_assoc (lstTag ++ encodeLen argv.length)
          ((argv.map encodeStr).flatten) junk,
        parseLength_encode lstTag argv.length _ rfl hargv]
      show parseStrings argv.length ((argv.map encodeStr).flatten ++ junk) =
        some (argv, junk)
      exact parseStrings_encode argv junk helem
    rw [hl]
  · intro bs htag
    unfold parse_exec_trace parseString parseLength
    rw [if_pos htag]
  · intro short hshort
    unfold parse_exec_trace parseString parseLength
    rw [List.take_left' (show strTag.length = 3 from rfl), if_neg (by simp),
      List.drop_left' (show strTag.length = 3 from rfl)]
    rw [if_pos (by rw [List.length_take]; omega)]

/-- C7 witness: the amended statement on a concrete two-field file. -/
theorem c7_decoder_behavior_witness :
    parse_exec_trace (encodeStr [47, 112] ++ encodeList [[103]] ++ [0, 1]) =
      some ⟨[47, 112], [[103]]⟩ ∧
    (∀ bs : List Nat, bs.take 3 ≠ strTag → parse_exec_trace bs = none) ∧
    (∀ short : List Nat, short.length < 4 →
      parse_exec_trace (strTag ++ short) = none) :=
  c7_decoder_behavior [47, 112] [[103]] [0, 1] (by decide) (by decide)
    (by intro s hs; simp at hs; simp [hs])

/-- C7 counterexample: a file with a trailing byte after the two
fields, and a file whose last string payload is short, are both
accepted rather than rejected as the claim requires. -/
theorem c7_counterexample :
    parse_exec_trace (encodeStr [47] ++ encodeList [] ++ [0]) =
      some ⟨[47], []⟩ ∧
    parse_exec_trace ([115, 116, 114, 1, 0, 0, 0, 47] ++
        [108, 115, 116, 1, 0, 0, 0] ++ [115, 116, 114, 5, 0, 0, 0, 97]) =
      some ⟨[47], [[97]]⟩ ∧
    (some (⟨[47], []⟩ : RawExecution) ≠ none) :=
  ⟨rfl, rfl, by simp⟩

/-!
## Claim C3
-/

theorem scanArgs_nil (result : CompilationCommand) :
    scanArgs [] result = .ok (if result.files = [] then none else some result) := by
  rw [scanArgs.eq_def]

theorem scanArgs_cons (arg : String) (args : List String)
    (result : CompilationCommand) :
    scanArgs (arg :: args) result =
      (if isAbortToken arg then .ok none
       else if isPhaseToken arg then
         scanArgs args { result with phase := result.phase ++ [arg] }
       else if (List.lookup arg IGNORED_FLAGS).isSome then
         if (List.lookup arg IGNORED_FLAGS).getD 0 = 0 then scanArgs args result
         else
           match args with
           | [] => .error .stopIteration
           | _ :: rest => scanArgs rest result
       else if isLinkerFlag arg then scanArgs args result
       else if isPairedFlag arg then
         match args with
         | [] => .error .stopIteration
         | x :: rest => scanArgs rest { result with flags := result.flags ++ [arg, x] }
       else if arg = "-o" then
         match args with
         | [] => .error .stopIteration
         | x :: rest => scanArgs rest { result with output := result.output ++ [x] }
       else if looksLikeSource arg then
         scanArgs args { result with files := result.files ++ [arg] }
       else scanArgs args { result with flags := result.flags ++ [arg] }) := by
  rw [scanArgs.eq_def]

/-!
## Claim C8
-/

theorem scanArgs_flags_plain :
    ∀ (n : Nat) (args : List String), args.length ≤ n →
      ∀ acc res, (∀ x ∈ args, isPairedFlag x = false) →
        scanArgs args acc = .ok (some res) →
        (∀ f ∈ acc.flags,
          isLinkerFlag f = false ∧ List.lookup f IGNORED_FLAGS = none) →
        ∀ f ∈ res.flags,
          isLinkerFlag f = false ∧ List.lookup f IGNORED_FLAGS = none := by
  intro n
  induction n with
  | zero =>
    intro args hlen acc res _ hscan hacc
    have hargs : args = [] := List.length_eq_zero.mp (Nat.le_zero.mp hlen)
    subst hargs
    rw [scanArgs_nil] at hscan
    by_cases hf : acc.files = []
    · rw [if_pos hf] at hscan; exact absurd hscan (by simp)
    · rw [if_neg hf] at hscan
      have hres : acc = res := by simpa using hscan
      exact hres ▸ hacc
  | succ n ih =>
    intro args hlen acc res hnd hscan hacc
    cases args with
    | nil =>
      rw [scanArgs_nil] at hscan
      by_cases hf : acc.files = []
      · rw [if_pos hf] at hscan; exact absurd hscan (by simp)
      · rw [if_neg hf] at hscan
        have hres : acc = res := by simpa using hscan
        exact hres ▸ hacc
    | cons x args2 =>
      have hx : isPairedFlag x = false := hnd x (List.mem_cons_self x args2)
      have hnd2 : ∀ y ∈ args2, isPairedFlag y = false :=
        fun y hy => hnd y (List.mem_cons_of_mem x hy)
      have hlen2 : args2.length ≤ n := by
        simp only [List.length_cons] at hlen; omega
      rw [scanArgs_cons] at hscan
      by_cases h1 : isAbortToken x = true
      · rw [if_pos h1] at hscan; exact absurd hscan (by simp)
      · rw [if_neg h1] at hscan
        by_cases h2 : isPhaseToken x = true
        · rw [if_pos h2] at hscan
          exact ih args2 hlen2 _ res hnd2 hscan hacc
        · rw [if_neg h2] at hscan
          by_cases h3 : (List.lookup x IGNORED_FLAGS).isSome = true
          · rw [if_pos h3] at hscan
            by_cases h4 : (List.lookup x IGNORED_FLAGS).getD 0 = 0
            · rw [if_pos h4] at hscan
              exact ih args2 hlen2 _ res hnd2 hscan hacc
            · rw [if_neg h4] at hscan
              cases args2 with
              | nil => exact absurd hscan (by simp)
              | cons y rest =>
                refine ih rest ?_ _ res
                  (fun z hz => hnd2 z (List.mem_cons_of_mem y hz)) hscan hacc
                simp only [List.length_cons] at hlen; omega
          · rw [if_neg h3] at hscan
            by_cases h5 : isLinkerFlag x = true
            · rw [if_pos h5] at hscan
              exact ih args2 hlen2 _ res hnd2 hscan hacc
            · rw [if_neg h5] at hscan
              rw [if_neg (by rw [hx]; simp)] at hscan
              by_cases h6 : x = "-o"
              · rw [if_pos h6] at hscan
                cases args2 with
                | nil => exact absurd hscan (by simp)
                | cons y rest =>
                  refine ih rest ?_ _ res
                    (fun z hz => hnd2 z (List.mem_cons_of_mem y hz)) hscan hacc
                  simp only [List.length_cons] at hlen; omega
              · rw [if_neg h6] at hscan
                by_cases h7 : looksLikeSource x = true
                · rw [if_pos h7] at hscan
                  exact ih args2 hlen2 _ res hnd2 hscan hacc
                · rw [if_neg h7] at hscan
                  refine ih args2 hlen2 _ res hnd2 hscan ?_
                  intro f hf
                  rcases List.mem_append.mp hf with hf2 | hf2
                  · exact hacc f hf2
                  · rw [List.mem_singleton.mp hf2]
                    refine ⟨?_, ?_⟩
                    · revert h5; cases isLinkerFlag x <;> simp
                    · revert h3
                      cases List.lookup x IGNORED_FLAGS <;> simp

/-- C8 (amended): for every Compilation emitted from an execution whose
post-compiler arguments contain none of -D, -U, -I, -include, no
flags entry matches -(l|L|Wl,).+ and no flags entry is an
IGNORED_FLAGS key; the paired flags are excluded because a token they
consume is stored in flags verbatim, escaping both filters, and a
token consumed by a skip-count key may equally reappear in flags from
another position. -/
theorem c8_flags_filtered (tools : Tools)
    (runCmd : List String → Option (List String)) (fs : String → Bool)
    (fuel : Nat) (e : Execution) (comp : String) (lang : Nat)
    (rest : List String) (l : List Compilation) (c : Compilation)
    (hsplit : splitCompiler tools runCmd fuel e.cmd = .ok (some (comp, lang, rest)))
    (hnd : ∀ x ∈ rest, isPairedFlag x = false)
    (hrun : iterFromExecution tools runCmd fs fuel e = .ok l)
    (hc : c ∈ l) :
    ∀ f ∈ c.flags, isLinkerFlag f = false ∧ List.lookup f IGNORED_FLAGS = none := by
  obtain ⟨cand, src, hsc, _, hmk, _⟩ :=
    mem_iterFromExecution tools runCmd fs fuel e l c hrun hc
  have hscan : scanArgs rest
      { compiler := comp, language := lang, phase := [], flags := [],
        files := [], output := [] } = .ok (some cand) := by
    have h2 := hsc
    unfold splitCommand at h2
    rw [hsplit] at h2
    exact h2
  have hflags := scanArgs_flags_plain rest.length rest le_rfl _ cand hnd hscan
    (by intro f hf; exact absurd hf (List.not_mem_nil f))
  intro f hf
  exact hflags f (by rw [hmk] at hf; exact hf)

/-- C8 witness: for [gcc, -c, -O2, -lm, a.c] the surviving flag -O2 is
neither a linker token nor an IGNORED_FLAGS key. -/
theorem c8_flags_filtered_witness :
    isLinkerFlag "-O2" = false ∧ List.lookup "-O2" IGNORED_FLAGS = none :=
  c8_flags_filtered defaultTools (fun _ => none) (fun s => s == "/p/a.c") 8
    ⟨"/p", ["gcc", "-c", "-O2", "-lm", "a.c"]⟩ "gcc" 0
    ["-c", "-O2", "-lm", "a.c"]
    [{ compiler := "gcc", language := 0, phase := "-c", flags := ["-O2"],
       directory := "/p", source := "/p/a.c", output := none }]
    { compiler := "gcc", language := 0, phase := "-c", flags := ["-O2"],
      directory := "/p", source := "/p/a.c", output := none }
    rfl (by decide) rfl (List.mem_singleton.mpr rfl) "-O2"
    (List.mem_singleton.mpr rfl)

/-- C8 counterexample: a token consumed by -I lands in flags even when
it matches the linker pattern or is an IGNORED_FLAGS key, and a token
equal to one consumed by -MF can survive in flags, violating the claim
as stated over the whole argument stream. -/
theorem c8_counterexample :
    iterFromExecution defaultTools (fun _ => none) (fun s => s == "/p/a.c") 8
        ⟨"/p", ["gcc", "-I", "-lm", "-D", "-MD", "a.c"]⟩ =
      .ok [{ compiler := "gcc", language := 0, phase := "-c",
             flags := ["-I", "-lm", "-D", "-MD"],
             directory := "/p", source := "/p/a.c", output := none }] ∧
    isLinkerFlag "-lm" = true ∧
    List.lookup "-MD" IGNORED_FLAGS = some 0 ∧
    iterFromExecution defaultTools (fun _ => none) (fun s => s == "/p/a.c") 8
        ⟨"/p", ["gcc", "-O2", "-MF", "-O2", "a.c"]⟩ =
      .ok [{ compiler := "gcc", language := 0, phase := "-c", flags := ["-O2"],
             directory := "/p", source := "/p/a.c", output := none }] :=
  ⟨rfl, by decide, by decide, rfl⟩

/-!
## Claim C9
-/

theorem pyEq_trans (a b c : Compilation) (h1 : a.pyEq b = true)
    (h2 : b.pyEq c = true) : a.pyEq c = true := by
  unfold Compilation.pyEq at h1 h2 ⊢
  rw [beq_iff_eq] at h1 h2 ⊢
  rw [h1, h2]

theorem pySet_foldl_mem (l : List Compilation) :
    ∀ (acc : List Compilation) (y : Compilation),
      ((∃ x ∈ l.foldl (fun acc c =>
          if acc.any (fun x => x.pyEq c) then acc else acc ++ [c]) acc,
          x.pyEq y = true) ↔
        (∃ x ∈ acc, x.pyEq y = true) ∨ (∃ x ∈ l, x.pyEq y = true)) := by
  induction l with
  | nil => intro acc y; simp
  | cons c rest ih =>
    intro acc y
    simp only [List.foldl_cons]
    by_cases hc : acc.any (fun x => x.pyEq c) = true
    · rw [if_pos hc, ih]
      constructor
      · rintro (h | h)
        · exact Or.inl h
        · rcases h with ⟨x, hx, hxy⟩
          exact Or.inr ⟨x, List.mem_cons_of_mem c hx, hxy⟩
      · rintro (h | ⟨x, hx, hxy⟩)
        · exact Or.inl h
        · rcases List.mem_cons.mp hx with h2 | h2
          · obtain ⟨a, ha, hac⟩ := List.any_eq_true.mp hc
            exact Or.inl ⟨a, ha, pyEq_trans a c y hac (h2 ▸ hxy)⟩
          · exact Or.inr ⟨x, h2, hxy⟩
    · rw [if_neg hc, ih]
      constructor
      · rintro (⟨x, hx, hxy⟩ | h)
        · rcases List.mem_append.mp hx with h2 | h2
          · exact Or.inl ⟨x, h2, hxy⟩
          · refine Or.inr ⟨x, ?_, hxy⟩
            rw [List.mem_singleton.mp h2]
            exact List.mem_cons_self c rest
        · rcases h with ⟨x, hx, hxy⟩
          exact Or.inr ⟨x, List.mem_cons_of_mem c hx, hxy⟩
      · rintro (⟨x, hx, hxy⟩ | ⟨x, hx, hxy⟩)
        · exact Or.inl ⟨x, List.mem_append_left [c] hx, hxy⟩
        · rcases List.mem_cons.mp hx with h2 | h2
          · refine Or.inl ⟨x, ?_, hxy⟩
            rw [h2]
            exact List.mem_append_right acc (List.mem_singleton.mpr rfl)
          · exact Or.inr ⟨x, h2, hxy⟩

theorem pySet_foldl_pairwise (l : List Compilation) :
    ∀ acc : List Compilation,
      List.Pairwise (fun a b : Compilation => a.pyEq b = false) acc →
      List.Pairwise (fun a b : Compilation => a.pyEq b = false)
        (l.foldl (fun acc c =>
          if acc.any (fun x => x.pyEq c) then acc else acc ++ [c]) acc) := by
  induction l with
  | nil => intro acc hacc; exact hacc
  | cons c rest ih =>
    intro acc hacc
    simp only [List.foldl_cons]
    by_cases hc : acc.any (fun x => x.pyEq c) = true
    · rw [if_pos hc]; exact ih acc hacc
    · rw [if_neg hc]
      refine ih (acc ++ [c]) ?_
      rw [List.pairwise_append]
      refine ⟨hacc, List.pairwise_singleton _ c, ?_⟩
      intro a ha b hb
      rw [List.mem_singleton.mp hb]
      have hfalse : acc.any (fun x => x.pyEq c) = false := by
        cases h : acc.any (fun x => x.pyEq c)
        · rfl
        · exact absurd h hc
      have hall := List.any_eq_false.mp hfalse
      have hnot := hall a ha
      cases h2 : a.pyEq c
      · rfl
      · exact absurd h2 hnot

/-- C9: the append branch of intercept_build saves exactly the union
of the loaded prior Compilations and the newly captured ones, one
representative per equality class of Compilation equality; saving
prior [A, B] then appending the new set [Bdup, C] (Bdup equal to B up
to compiler and output) yields exactly the entries A, B, C. -/
theorem c9_append_union :
    (∀ previous current : List Compilation, ∀ y : Compilation,
      ((∃ x ∈ appendSave previous current, x.pyEq y = true) ↔
        (∃ x ∈ previous, x.pyEq y = true) ∨ (∃ x ∈ current, x.pyEq y = true))) ∧
    (∀ previous current : List Compilation,
      (appendSave previous current).Pairwise (fun a b => a.pyEq b = false)) ∧
    appendSave
      [{ compiler := "gcc", language := 0, phase := "-c", flags := [],
         directory := "/p", source := "/p/a.c", output := none },
       { compiler := "gcc", language := 0, phase := "-c", flags := [],
         directory := "/p", source := "/p/b.c", output := none }]
      [{ compiler := "clang", language := 0, phase := "-c", flags := [],
         directory := "/p", source := "/p/b.c", output := some "b.o" },
       { compiler := "gcc", language := 0, phase := "-c", flags := [],
         directory := "/p", source := "/p/c.c", output := none }] =
      [{ compiler := "gcc", language := 0, phase := "-c", flags := [],
         directory := "/p", source := "/p/a.c", output := none },
       { compiler := "gcc", language := 0, phase := "-c", flags := [],
         directory := "/p", source := "/p/b.c", output := none },
       { compiler := "gcc", language := 0, phase := "-c", flags := [],
         directory := "/p", source := "/p/c.c", output := none }] := by
  refine ⟨?_, ?_, ?_⟩
  · intro p c y
    unfold appendSave pySet
    rw [pySet_foldl_mem (p ++ c) [] y]
    constructor
    · rintro (h | ⟨x, hx, hxy⟩)
      · simp at h
      · rcases List.mem_append.mp hx with h2 | h2
        · exact Or.inl ⟨x, h2, hxy⟩
        · exact Or.inr ⟨x, h2, hxy⟩
    · rintro (⟨x, hx, hxy⟩ | ⟨x, hx, hxy⟩)
      · exact Or.inr ⟨x, List.mem_append_left c hx, hxy⟩
      · exact Or.inr ⟨x, List.mem_append_right p hx, hxy⟩
  · intro p c
    exact pySet_foldl_pairwise (p ++ c) [] List.Pairwise.nil
  · rfl

/-!
## Claim C6: path round-trip lemmas
-/

theorem lcpLen_le_left (A B : List (List Char)) : lcpLen A B ≤ A.length := by
  induction A generalizing B with
  | nil => simp [lcpLen]
  | cons a A2 ih =>
    cases B with
    | nil => simp [lcpLen]
    | cons b B2 =>
      by_cases hab : a = b
      · simp only [lcpLen, if_pos hab, List.length_cons]
        exact Nat.succ_le_succ (ih B2)
      · simp [lcpLen, hab]

theorem lcpLen_take (A B : List (List Char)) :
    A.take (lcpLen A B) = B.take (lcpLen A B) := by
  induction A generalizing B with
  | nil => simp [lcpLen]
  | cons a A2 ih =>
    cases B with
    | nil => simp [lcpLen]
    | cons b B2 =>
      by_cases hab : a = b
      · subst hab
        have hstep : lcpLen (a :: A2) (a :: B2) = lcpLen A2 B2 + 1 := by
          simp [lcpLen]
        rw [hstep, List.take_succ_cons, List.take_succ_cons, ih B2]
      · simp [lcpLen, hab]

theorem splitSlash_join_append (A : List (List Char)) (R : List Char)
    (hA : A ≠ []) (hs : ∀ x ∈ A, '/' ∉ x) :
    splitSlash (List.intercalate ['/'] A ++ '/' :: R) = A ++ splitSlash R := by
  induction A with
  | nil => exact absurd rfl hA
  | cons a A2 ih =>
    cases A2 with
    | nil =>
      rw [show List.intercalate ['/'] [a] = a from by simp [List.intercalate]]
      rw [splitSlash_append_slash a R (hs a (List.mem_cons_self a []))]
      rfl
    | cons b t =>
      rw [show List.intercalate ['/'] (a :: b :: t) =
          a ++ '/' :: List.intercalate ['/'] (b :: t) from by
        simp [List.intercalate, List.intersperse_cons_cons]]
      rw [List.append_assoc, List.cons_append]
      rw [splitSlash_append_slash a _ (hs a (List.mem_cons_self a _))]
      rw [show List.intercalate ['/'] (b :: t) ++ '/' :: R =
          List.intercalate ['/'] (b :: t) ++ '/' :: R from rfl]
      rw [ih (by simp) (fun x hx => hs x (List.mem_cons_of_mem a hx))]
      rfl

theorem normParts_dotdot (k : Nat) :
    ∀ (acc : List (List Char)) (rest : List (List Char)),
      (∀ x ∈ acc, CleanComp x) → k ≤ acc.length →
      normParts true acc (List.replicate k ['.', '.'] ++ rest) =
        normParts true (acc.take (acc.length - k)) rest := by
  induction k with
  | zero => intro acc rest _ _; simp
  | succ k ih =>
    intro acc rest hacc hk
    rw [List.replicate_succ, List.cons_append]
    have hne : acc ≠ [] := by
      intro he; rw [he] at hk; simp at hk
    have hlast : acc.getLast? ≠ some ['.', '.'] := by
      intro hl
      exact (hacc _ (List.mem_of_mem_getLast? hl)).2.2.1 rfl
    show normParts true acc (['.', '.'] :: (List.replicate k ['.', '.'] ++ rest)) = _
    rw [show normParts true acc (['.', '.'] :: (List.replicate k ['.', '.'] ++ rest)) =
        normParts true acc.dropLast (List.replicate k ['.', '.'] ++ rest) from by
      conv_lhs => rw [normParts]
      rw [if_neg (by simp), if_neg ?_, if_pos hne]
      rintro (h | h | h)
      · exact h rfl
      · exact absurd h.1 (by simp)
      · exact hlast h.2]
    have harg : List.take (acc.dropLast.length - k) acc.dropLast =
        List.take (acc.length - (k + 1)) acc := by
      rw [List.length_dropLast, List.dropLast_eq_take, List.take_take]
      congr 1
      omega
    rw [ih acc.dropLast rest
      (fun x hx => hacc x (List.dropLast_subset acc hx))
      (by rw [List.length_dropLast]; omega), harg]

theorem normParts_clean_prefix (A : List (List Char)) :
    ∀ (acc rest : List (List Char)), (∀ x ∈ A, CleanComp x) →
      normParts true acc (A ++ rest) = normParts true (acc ++ A) rest := by
  induction A with
  | nil => intro acc rest _; simp
  | cons comp A2 ih =>
    intro acc rest hclean
    have hc := hclean comp (List.mem_cons_self comp A2)
    show normParts true acc (comp :: (A2 ++ rest)) = _
    conv_lhs => rw [normParts]
    rw [if_neg (by
      intro h; rcases h with h | h
      · exact hc.1 h
      · exact hc.2.1 h)]
    rw [if_pos (Or.inl hc.2.2.1)]
    rw [ih (acc ++ [comp]) rest (fun y hy => hclean y (List.mem_cons_of_mem comp hy))]
    simp

/-- The canonical shape of an absolute, normalized, non-double-slash
path: a slash followed by slash-joined clean components. -/
theorem normalized_abs_form (s : String) (habs : isabs s = true)
    (hnorm : IsNormalized s) (hnd : s.data.take 2 ≠ ['/', '/']) :
    ∃ comps, (∀ x ∈ comps, CleanComp x) ∧
      s.data = '/' :: List.intercalate ['/'] comps := by
  refine ⟨normParts true [] (splitSlash s.data),
    normParts_clean _ [] (by simp) (mem_splitSlash_no_slash _), ?_⟩
  have hdata : s.data = normpathChars s.data := (congrArg String.data hnorm).symm
  conv_lhs => rw [hdata]
  rw [normpathChars_abs s.data (isabs_head s habs)]
  have hc : ((s.data.take 2 == ['/', '/']) &&
      !(s.data.take 3 == ['/', '/', '/'])) = false := by
    simp [hnd]
  rw [hc]
  rfl

theorem filter_splitSlash_form (comps : List (List Char))
    (hcl : ∀ x ∈ comps, CleanComp x) :
    (splitSlash ('/' :: List.intercalate ['/'] comps)).filter
      (fun x => x ≠ []) = comps := by
  rw [splitSlash_cons_slash]
  cases comps with
  | nil => decide
  | cons c cs =>
    rw [splitSlash_intercalate (c :: cs) (by simp)
      (fun x hx => (hcl x hx).2.2.2)]
    have h1 : List.filter (fun x => decide (x ≠ [])) ([] :: c :: cs) =
        List.filter (fun x => decide (x ≠ [])) (c :: cs) := by
      simp
    rw [show (fun (x : List Char) => (x ≠ [] : Bool)) =
        (fun (x : List Char) => decide (x ≠ [])) from rfl, h1]
    rw [List.filter_eq_self.mpr ?_]
    intro x hx
    simpa using (hcl x hx).1

theorem relpath_data (src dir : String) (sComps dComps : List (List Char))
    (hs : src.data = '/' :: List.intercalate ['/'] sComps)
    (hscl : ∀ x ∈ sComps, CleanComp x)
    (hd : dir.data = '/' :: List.intercalate ['/'] dComps)
    (hdcl : ∀ x ∈ dComps, CleanComp x)
    (hsn : IsNormalized src) (hdn : IsNormalized dir) :
    (relpath src dir).data =
      (if (List.replicate (dComps.length - lcpLen dComps sComps) ['.', '.'] ++
          sComps.drop (lcpLen dComps sComps)) = [] then ['.']
       else List.intercalate ['/']
         (List.replicate (dComps.length - lcpLen dComps sComps) ['.', '.'] ++
           sComps.drop (lcpLen dComps sComps))) := by
  show relpathChars src.data dir.data = _
  have hnps : normpathChars src.data = src.data := congrArg String.data hsn
  have hnpd : normpathChars dir.data = dir.data := congrArg String.data hdn
  simp only [relpathChars, hnps, hnpd]
  conv_lhs => rw [hs, hd]
  rw [filter_splitSlash_form sComps hscl, filter_splitSlash_form dComps hdcl]

theorem intercalate_head_ne_slash (comps : List (List Char)) (h : comps ≠ [])
    (hel : ∀ x ∈ comps, x ≠ [] ∧ '/' ∉ x) :
    ∃ ch tail, List.intercalate ['/'] comps = ch :: tail ∧ ch ≠ '/' := by
  cases comps with
  | nil => exact absurd rfl h
  | cons c cs =>
    obtain ⟨ch, ct, hcc⟩ : ∃ ch ct, c = ch :: ct := by
      rcases hc : c with _ | ⟨a, b⟩
      · exact absurd hc (hel c (List.mem_cons_self c cs)).1
      · exact ⟨a, b, rfl⟩
    obtain ⟨tail, ht⟩ := intercalate_head c cs ch ct hcc
    refine ⟨ch, tail, ht, ?_⟩
    intro he
    apply (hel c (List.mem_cons_self c cs)).2
    rw [hcc, he]
    exact List.mem_cons_self _ _

theorem intercalate_getLast_ne_slash (comps : List (List Char)) (h : comps ≠ [])
    (hel : ∀ x ∈ comps, x ≠ [] ∧ '/' ∉ x) :
    ∃ c, (List.intercalate ['/'] comps).getLast? = some c ∧ c ≠ '/' := by
  induction comps with
  | nil => exact absurd rfl h
  | cons a rest ih =>
    cases rest with
    | nil =>
      rw [show List.intercalate ['/'] [a] = a from by simp [List.intercalate]]
      have ha := hel a (List.mem_cons_self a [])
      rcases a.eq_nil_or_concat with h0 | ⟨L, b, hb⟩
      · exact absurd h0 ha.1
      · refine ⟨b, ?_, ?_⟩
        · rw [hb]; simp
        · intro he
          apply ha.2
          rw [hb, he]
          simp
    | cons b t =>
      rw [show List.intercalate ['/'] (a :: b :: t) =
          a ++ '/' :: List.intercalate ['/'] (b :: t) from by
        simp [List.intercalate, List.intersperse_cons_cons]]
      obtain ⟨c, hc, hcne⟩ := ih (by simp)
        (fun x hx => hel x (List.mem_cons_of_mem a hx))
      refine ⟨c, ?_, hcne⟩
      have hXne : List.intercalate ['/'] (b :: t) ≠ [] := by
        obtain ⟨ch, tail, hh, _⟩ := intercalate_head_ne_slash (b :: t) (by simp)
          (fun x hx => hel x (List.mem_cons_of_mem a hx))
        rw [hh]; simp
      rw [List.getLast?_append_of_ne_nil a
        (show ('/' :: List.intercalate ['/'] (b :: t)) ≠ [] from by simp)]
      rw [show ('/' :: List.intercalate ['/'] (b :: t)) =
          ['/'] ++ List.intercalate ['/'] (b :: t) from rfl]
      rw [List.getLast?_append_of_ne_nil ['/'] hXne, hc]

theorem normParts_relList (dComps sComps : List (List Char))
    (hdcl : ∀ x ∈ dComps, CleanComp x) (hscl : ∀ x ∈ sComps, CleanComp x) :
    normParts true dComps
      (List.replicate (dComps.length - lcpLen dComps sComps) ['.', '.'] ++
        sComps.drop (lcpLen dComps sComps)) = sComps := by
  rw [normParts_dotdot (dComps.length - lcpLen dComps sComps) dComps _ hdcl
    (Nat.sub_le _ _)]
  rw [show dComps.length - (dComps.length - lcpLen dComps sComps) =
      lcpLen dComps sComps from by
    have := lcpLen_le_left dComps sComps; omega]
  rw [normParts_clean_append (sComps.drop (lcpLen dComps sComps)) _
    (fun x hx => hscl x (List.mem_of_mem_drop hx))]
  rw [lcpLen_take dComps sComps, List.take_append_drop]

/-- Re-joining the relative path of a normalized absolute source
against its normalized absolute directory and normalizing gives the
source back (single-slash roots; the dot case is excluded). -/
theorem roundtrip_path (src dir : String)
    (hsrc : isabs src = true) (hsn : IsNormalized src)
    (hsd : src.data.take 2 ≠ ['/', '/'])
    (hdir : isabs dir = true) (hdn : IsNormalized dir)
    (hdd : dir.data.take 2 ≠ ['/', '/'])
    (hne : relpath src dir ≠ ".") :
    isabs (relpath src dir) = false ∧
      normpath (joinPath dir (relpath src dir)) = src := by
  obtain ⟨sComps, hscl, hs⟩ := normalized_abs_form src hsrc hsn hsd
  obtain ⟨dComps, hdcl, hd⟩ := normalized_abs_form dir hdir hdn hdd
  have hreldata := relpath_data src dir sComps dComps hs hscl hd hdcl hsn hdn
  have hrelne : (List.replicate (dComps.length - lcpLen dComps sComps) ['.', '.'] ++
      sComps.drop (lcpLen dComps sComps)) ≠ [] := by
    intro he
    apply hne
    have h2 : (relpath src dir).data = ['.'] := by rw [hreldata, if_pos he]
    exact congrArg String.mk h2
  have hreldata2 : (relpath src dir).data = List.intercalate ['/']
      (List.replicate (dComps.length - lcpLen dComps sComps) ['.', '.'] ++
        sComps.drop (lcpLen dComps sComps)) := by
    rw [hreldata, if_neg hrelne]
  have hrelel : ∀ x ∈ (List.replicate (dComps.length - lcpLen dComps sComps)
      ['.', '.'] ++ sComps.drop (lcpLen dComps sComps)), x ≠ [] ∧ '/' ∉ x := by
    intro x hx
    rcases List.mem_append.mp hx with h | h
    · rw [List.eq_of_mem_replicate h]
      exact ⟨by simp, by decide⟩
    · have h2 := hscl x (List.mem_of_mem_drop h)
      exact ⟨h2.1, h2.2.2.2⟩
  obtain ⟨ch, rtail, hchtail, hch⟩ := intercalate_head_ne_slash _ hrelne hrelel
  have hrel_head : (relpath src dir).data = ch :: rtail := by
    rw [hreldata2, hchtail]
  have habs_rel : isabs (relpath src dir) = false := by
    rw [isabs, hrel_head]
    simp [hch]
  refine ⟨habs_rel, ?_⟩
  by_cases hdnil : dComps = []
  · -- dir is the root: the joined path is literally the source string
    have hi0 : lcpLen dComps sComps = 0 := by rw [hdnil]; rfl
    have hdirdata : dir.data = ['/'] := by rw [hd, hdnil]; rfl
    have hjoin : joinPath dir (relpath src dir) = src := by
      unfold joinPath
      rw [if_neg (by rw [habs_rel]; simp), if_pos (Or.inr (by rw [hdirdata]; rfl))]
      refine congrArg String.mk ?_
      rw [hdirdata, hreldata2, hi0, hdnil, hs]
      simp
    rw [hjoin]
    exact hsn
  · obtain ⟨lc, hlc, hlcne⟩ := intercalate_getLast_ne_slash dComps hdnil
      (fun x hx => ⟨(hdcl x hx).1, (hdcl x hx).2.2.2⟩)
    have hXne : List.intercalate ['/'] dComps ≠ [] := by
      intro he; rw [he] at hlc; exact Option.noConfusion hlc
    have hdlast : dir.data.getLast? = some lc := by
      rw [hd, show ('/' :: List.intercalate ['/'] dComps) =
        ['/'] ++ List.intercalate ['/'] dComps from rfl]
      rw [List.getLast?_append_of_ne_nil ['/'] hXne, hlc]
    have hdne : dir.data ≠ [] := by rw [hd]; simp
    have hcond : ¬(dir.data = [] ∨ dir.data.getLast? = some '/') := by
      rintro (h | h)
      · exact hdne h
      · rw [hdlast] at h
        exact hlcne (Option.some_inj.mp h)
    have hjoin : (joinPath dir (relpath src dir)).data =
        dir.data ++ '/' :: (relpath src dir).data := by
      unfold joinPath
      rw [if_neg (by rw [habs_rel]; simp), if_neg hcond]
    obtain ⟨d0h, dtail, hdtail, hd0h⟩ := intercalate_head_ne_slash dComps hdnil
      (fun x hx => ⟨(hdcl x hx).1, (hdcl x hx).2.2.2⟩)
    have hjdata2 : (joinPath dir (relpath src dir)).data =
        '/' :: d0h :: (dtail ++ '/' :: (relpath src dir).data) := by
      rw [hjoin, hd, hdtail]
      rfl
    refine congrArg String.mk ?_
    show normpathChars (joinPath dir (relpath src dir)).data = src.data
    rw [normpathChars_abs _ (by rw [hjdata2]; rfl)]
    have hdbl : (((joinPath dir (relpath src dir)).data.take 2 == ['/', '/']) &&
        !((joinPath dir (relpath src dir)).data.take 3 ==
          ['/', '/', '/'])) = false := by
      rw [hjdata2]
      simp [hd0h]
    rw [hdbl]
    have hsplit : splitSlash ((joinPath dir (relpath src dir)).data) =
        [] :: (dComps ++
          (List.replicate (dComps.length - lcpLen dComps sComps) ['.', '.'] ++
            sComps.drop (lcpLen dComps sComps))) := by
      rw [hjoin, hd]
      rw [show ('/' :: List.intercalate ['/'] dComps) ++
          '/' :: (relpath src dir).data =
          '/' :: (List.intercalate ['/'] dComps ++
            '/' :: (relpath src dir).data) from rfl]
      rw [splitSlash_cons_slash]
      congr 1
      rw [splitSlash_join_append dComps _ hdnil
        (fun x hx => (hdcl x hx).2.2.2)]
      congr 1
      rw [hreldata2]
      exact splitSlash_intercalate _ hrelne (fun x hx => (hrelel x hx).2)
    rw [hsplit, normParts_skip_nil,
      normParts_clean_prefix dComps [] _ hdcl]
    rw [show ([] : List (List Char)) ++ dComps = dComps from by simp]
    rw [normParts_relList dComps sComps hdcl hscl, hs]
    rfl

theorem contains_mem {s : String} {L : List String}
    (h : L.contains s = true) : s ∈ L := by
  simpa using h

theorem pairedFlag_not_others (d : String) (h : isPairedFlag d = true) :
    isAbortToken d = false ∧ isPhaseToken d = false ∧
      List.lookup d IGNORED_FLAGS = none ∧ isLinkerFlag d = false := by
  have hmem : d ∈ ["-D", "-U", "-I", "-include"] := contains_mem h
  simp only [List.mem_cons, List.mem_singleton, List.not_mem_nil, or_false] at hmem
  rcases hmem with h1 | h1 | h1 | h1 <;> subst h1 <;> exact ⟨rfl, rfl, rfl, rfl⟩

theorem lookup_mem_keys (a : String) (l : List (String × Nat)) (v : Nat)
    (h : List.lookup a l = some v) : a ∈ l.map Prod.fst := by
  induction l with
  | nil => simp [List.lookup] at h
  | cons p t ih =>
    obtain ⟨k, b⟩ := p
    simp only [List.map_cons, List.mem_cons]
    by_cases hab : (a == k) = true
    · exact Or.inl (eq_of_beq hab)
    · right
      apply ih
      have hfalse : (a == k) = false := by
        cases hq : a == k
        · rfl
        · exact absurd hq hab
      rw [List.lookup, hfalse] at h
      exact h

theorem head_not_dash_guards (s : String) (c0 : Char) (rest : List Char)
    (hdata : s.data = c0 :: rest) (hc0 : c0 ≠ '-') :
    isAbortToken s = false ∧ isPhaseToken s = false ∧
      List.lookup s IGNORED_FLAGS = none ∧ isLinkerFlag s = false ∧
      isPairedFlag s = false ∧ s ≠ "-o" := by
  have hhead : s.data.head? = some c0 := by rw [hdata]; rfl
  have hcontains : ∀ L : List String, (∀ k ∈ L, k.data.head? = some '-') →
      L.contains s = false := by
    intro L hL
    cases hcb : L.contains s
    · rfl
    · exfalso
      have := hL s (contains_mem hcb)
      rw [hhead] at this
      exact hc0 (Option.some_inj.mp this)
  refine ⟨hcontains _ (by decide), hcontains _ (by decide), ?_, ?_, ?_, ?_⟩
  · cases hlk : List.lookup s IGNORED_FLAGS with
    | none => rfl
    | some v =>
      exfalso
      have hmem := lookup_mem_keys s IGNORED_FLAGS v hlk
      have hkeys : ∀ k ∈ IGNORED_FLAGS.map Prod.fst,
          k.data.head? = some '-' := by decide
      have := hkeys s hmem
      rw [hhead] at this
      exact hc0 (Option.some_inj.mp this)
  · unfold isLinkerFlag
    rw [hdata]
    split <;> simp_all
  · exact hcontains _ (by decide)
  · intro he
    subst he
    exact hc0 (Option.some_inj.mp (by rw [← hhead]; rfl))

theorem scanArgs_phase_step (p : String) (hp : p = "-c" ∨ p = "-S")
    (r : List String) (acc : CompilationCommand) :
    scanArgs (p :: r) acc = scanArgs r { acc with phase := acc.phase ++ [p] } := by
  rcases hp with h | h <;> subst h <;>
    rw [scanArgs_cons, if_neg (by decide), if_pos (by decide)]

theorem scanArgs_goodflags (L : List String) (hL : GoodFlags L) :
    ∀ (r : List String) (acc : CompilationCommand),
      scanArgs (L ++ r) acc = scanArgs r { acc with flags := acc.flags ++ L } := by
  induction hL with
  | nil =>
    intro r acc
    simp
  | pair d x rest hd hrest ih =>
    intro r acc
    obtain ⟨h1, h2, h3, h4⟩ := pairedFlag_not_others d hd
    show scanArgs (d :: (x :: (rest ++ r))) acc = _
    rw [scanArgs_cons, if_neg (by rw [h1]; simp), if_neg (by rw [h2]; simp),
      if_neg (by rw [h3]; simp), if_neg (by rw [h4]; simp), if_pos hd]
    show scanArgs (rest ++ r) { acc with flags := acc.flags ++ [d, x] } = _
    rw [ih r _]
    congr 1
    simp
  | single f rest h1 h2 h3 h4 h5 h6 h7 hrest ih =>
    intro r acc
    show scanArgs (f :: (rest ++ r)) acc = _
    rw [scanArgs_cons, if_neg (by rw [h1]; simp), if_neg (by rw [h2]; simp),
      if_neg (by rw [h3]; simp), if_neg (by rw [h4]; simp),
      if_neg (by rw [h5]; simp), if_neg h6, if_neg (by rw [h7]; simp)]
    rw [ih r _]
    congr 1
    simp

theorem scanArgs_output_step (out : String) (r : List String)
    (acc : CompilationCommand) :
    scanArgs ("-o" :: out :: r) acc =
      scanArgs r { acc with output := acc.output ++ [out] } := by
  rw [scanArgs_cons, if_neg (by decide), if_neg (by decide),
    if_neg (by decide), if_neg (by decide), if_neg (by decide), if_pos rfl]

theorem scanArgs_source_step (srcTok : String) (c0 : Char) (crest : List Char)
    (hdata : srcTok.data = c0 :: crest) (hc0 : c0 ≠ '-')
    (hsrc : looksLikeSource srcTok = true) (r : List String)
    (acc : CompilationCommand) :
    scanArgs (srcTok :: r) acc =
      scanArgs r { acc with files := acc.files ++ [srcTok] } := by
  obtain ⟨g1, g2, g3, g4, g5, g6⟩ := head_not_dash_guards srcTok c0 crest hdata hc0
  rw [scanArgs_cons, if_neg (by rw [g1]; simp), if_neg (by rw [g2]; simp),
    if_neg (by rw [g3]; simp), if_neg (by rw [g4]; simp),
    if_neg (by rw [g5]; simp), if_neg g6, if_pos hsrc]

theorem splitCompiler_cons (tools : Tools)
    (runCmd : List String → Option (List String)) (fuel : Nat) (c0 : String)
    (ps : List String) :
    splitCompiler tools runCmd (fuel + 1) (c0 :: ps) =
      (if Tools.is_wrapper (basename c0) then
        match splitCompiler tools runCmd fuel ps with
        | .error e => .error e
        | .ok result => .ok (result <|> some (c0, C_LANG, ps))
      else if Tools.is_mpi_wrapper (basename c0) then
        match get_mpi_call runCmd c0 with
        | .error e => .error e
        | .ok mpi_call => splitCompiler tools runCmd fuel (mpi_call ++ ps)
      else if tools.is_c_compiler (basename c0) then .ok (some (c0, C_LANG, ps))
      else if tools.is_cxx_compiler (basename c0) then
        .ok (some (c0, CPLUSPLUS_LANG, ps))
      else if tools.is_fortran_compiler (basename c0) then
        .ok (some (c0, FORTRAN_LANG, ps))
      else .ok none) := by
  rw [splitCompiler.eq_def]

theorem splitCompiler_reparse (tools : Tools)
    (runCmd : List String → Option (List String)) (n : Nat)
    (comp phase : String) (tail2 : List String)
    (hphase : phase = "-c" ∨ phase = "-S")
    (htools : ∀ p : String, p = "-c" ∨ p = "-S" →
      tools.is_c_compiler p = false ∧ tools.is_cxx_compiler p = false ∧
        tools.is_fortran_compiler p = false)
    (hcomp : Tools.is_wrapper (basename comp) = true ∨
      (Tools.is_wrapper (basename comp) = false ∧
        Tools.is_mpi_wrapper (basename comp) = false ∧
        (tools.is_c_compiler (basename comp) = true ∨
          tools.is_cxx_compiler (basename comp) = true ∨
          tools.is_fortran_compiler (basename comp) = true))) :
    ∃ lang2, splitCompiler tools runCmd (n + 2) (comp :: phase :: tail2) =
      .ok (some (comp, lang2, phase :: tail2)) := by
  have hinner : splitCompiler tools runCmd (n + 1) (phase :: tail2) = .ok none := by
    obtain ⟨hc1, hc2, hc3⟩ := htools phase hphase
    rw [splitCompiler_cons]
    have hbp : basename phase = phase := by
      rcases hphase with h | h <;> subst h <;> rfl
    rw [hbp]
    rw [if_neg (by rcases hphase with h | h <;> subst h <;> decide),
      if_neg (by rcases hphase with h | h <;> subst h <;> decide),
      if_neg (by rw [hc1]; simp), if_neg (by rw [hc2]; simp),
      if_neg (by rw [hc3]; simp)]
  show ∃ lang2, splitCompiler tools runCmd ((n + 1) + 1)
    (comp :: phase :: tail2) = .ok (some (comp, lang2, phase :: tail2))
  rw [splitCompiler_cons]
  rcases hcomp with hw | ⟨hw, hm, hlang⟩
  · refine ⟨C_LANG, ?_⟩
    rw [if_pos hw, hinner]
    rfl
  · rw [if_neg (by rw [hw]; simp), if_neg (by rw [hm]; simp)]
    rcases hlang with h | h | h
    · refine ⟨C_LANG, ?_⟩
      rw [if_pos h]
    · by_cases hc : tools.is_c_compiler (basename comp) = true
      · exact ⟨C_LANG, by rw [if_pos hc]⟩
      · exact ⟨CPLUSPLUS_LANG, by rw [if_neg hc, if_pos h]⟩
    · by_cases hc : tools.is_c_compiler (basename comp) = true
      · exact ⟨C_LANG, by rw [if_pos hc]⟩
      · by_cases hx : tools.is_cxx_compiler (basename comp) = true
        · exact ⟨CPLUSPLUS_LANG, by rw [if_neg hc, if_pos hx]⟩
        · exact ⟨FORTRAN_LANG, by rw [if_neg hc, if_neg hx, if_pos h]⟩

theorem iterFromExecution_single (tools : Tools)
    (runCmd : List String → Option (List String)) (fs : String → Bool)
    (fuel : Nat) (cwd : String) (cmd : List String)
    (cand : CompilationCommand) (srcTok : String)
    (hsc : splitCommand tools runCmd fuel cmd = .ok (some cand))
    (hfiles : cand.files = [srcTok])
    (hfs : fs (Compilation.make cand.compiler cand.language
        (cand.phase.headD "-c") cand.flags srcTok cwd
        cand.output.head?).source = true) :
    iterFromExecution tools runCmd fs fuel ⟨cwd, cmd⟩ =
      .ok [Compilation.make cand.compiler cand.language
        (cand.phase.headD "-c") cand.flags srcTok cwd cand.output.head?] := by
  unfold iterFromExecution
  rw [hsc]
  show Except.ok (cand.files.filterMap (fun source =>
      let output := cand.output.head?
      let phase := cand.phase.headD "-c"
      let result := Compilation.make cand.compiler cand.language
        phase cand.flags source cwd output
      if fs result.source then some result else none)) = _
  rw [hfiles]
  simp only [List.filterMap_cons, List.filterMap_nil, hfs, if_true]

/-- **C6.**  Round-trip: for an emitted-shape Compilation (normalized
single-slash-rooted absolute directory and source, a phase token the
configured tools do not themselves recognize as compilers, flags that the
scanner stores verbatim, a compiler whose basename is recognized, and a
relative path that still classifies as a source file), re-parsing the
serialized DB entry through from_db_entry with the same tools yields
exactly one Compilation equal to the original on the
(phase, flags, directory, source) key, provided the source still exists. -/
theorem c6_roundtrip (tools : Tools) (runCmd : List String → Option (List String))
    (fs : String → Bool) (n : Nat) (fo : Bool) (c : Compilation)
    (hdirabs : isabs c.directory = true) (hdirn : IsNormalized c.directory)
    (hdird : c.directory.data.take 2 ≠ ['/', '/'])
    (hsrcabs : isabs c.source = true) (hsrcn : IsNormalized c.source)
    (hsrcd : c.source.data.take 2 ≠ ['/', '/'])
    (hphase : c.phase = "-c" ∨ c.phase = "-S")
    (hflags : GoodFlags c.flags)
    (htools : ∀ p : String, p = "-c" ∨ p = "-S" →
      tools.is_c_compiler p = false ∧ tools.is_cxx_compiler p = false ∧
        tools.is_fortran_compiler p = false)
    (hcomp : Tools.is_wrapper (basename c.compiler) = true ∨
      (Tools.is_wrapper (basename c.compiler) = false ∧
        Tools.is_mpi_wrapper (basename c.compiler) = false ∧
        (tools.is_c_compiler (basename c.compiler) = true ∨
          tools.is_cxx_compiler (basename c.compiler) = true ∨
          tools.is_fortran_compiler (basename c.compiler) = true)))
    (hrel : looksLikeSource (relpath c.source c.directory) = true)
    (hfs : fs c.source = true) :
    (from_db_entry (c.as_db_entry fo) tools runCmd fs (n + 2)).map
      (List.map Compilation.as_dict) = .ok [c.as_dict] := by
  have hne : relpath c.source c.directory ≠ "." := by
    intro he
    rw [he] at hrel
    exact absurd hrel (by decide)
  obtain ⟨habs_rel, hround⟩ :=
    roundtrip_path c.source c.directory hsrcabs hsrcn hsrcd hdirabs hdirn hdird hne
  obtain ⟨c0, crest, hrdata, hc0⟩ : ∃ c0 crest,
      (relpath c.source c.directory).data = c0 :: crest ∧ c0 ≠ '-' := by
    have h := hrel
    unfold looksLikeSource at h
    rw [Bool.and_eq_true] at h
    rcases hd : (relpath c.source c.directory).data with _ | ⟨x, t⟩
    · rw [hd] at h
      exact absurd h.1 (by simp)
    · rcases t with _ | ⟨y, t2⟩
      · rw [hd] at h
        exact absurd h.1 (by simp)
      · rw [hd] at h
        have h2 : (decide (x ≠ '-') && decide (y ≠ '\n')) = true := h.1
        rw [Bool.and_eq_true, decide_eq_true_eq, decide_eq_true_eq] at h2
        exact ⟨x, y :: t2, rfl, h2.1⟩
  have hdirn' : normpath c.directory = c.directory := hdirn
  have hnotabs : ¬ (isabs (relpath c.source c.directory) = true) := by
    simp [habs_rel]
  cases hout : c.output with
  | none =>
    obtain ⟨lang2, hsplitc⟩ := splitCompiler_reparse tools runCmd n c.compiler
      c.phase (c.flags ++ [relpath c.source c.directory]) hphase htools hcomp
    have hsc : splitCommand tools runCmd (n + 2)
        ([c.compiler, c.phase] ++ c.flags ++ [relpath c.source c.directory]) =
        .ok (some { compiler := c.compiler, language := lang2, phase := [c.phase],
                    flags := c.flags, files := [relpath c.source c.directory],
                    output := [] }) := by
      unfold splitCommand
      rw [show [c.compiler, c.phase] ++ c.flags ++ [relpath c.source c.directory]
          = c.compiler :: c.phase :: (c.flags ++ [relpath c.source c.directory])
        from by simp, hsplitc]
      show scanArgs (c.phase :: (c.flags ++ [relpath c.source c.directory]))
          { compiler := c.compiler, language := lang2, phase := [], flags := [],
            files := [], output := [] } = _
      rw [scanArgs_phase_step c.phase hphase,
        scanArgs_goodflags c.flags hflags [relpath c.source c.directory] _,
        scanArgs_source_step (relpath c.source c.directory) c0 crest hrdata hc0
          hrel [] _, scanArgs_nil]
      rfl
    have hentry : c.as_db_entry fo =
        { file := relpath c.source c.directory,
          arguments := [c.compiler, c.phase] ++ c.flags ++
            [relpath c.source c.directory],
          directory := c.directory, outputField := none } := by
      simp only [Compilation.as_db_entry, hout]
    have hsrceq : (Compilation.make c.compiler lang2 ([c.phase].headD "-c")
        c.flags (relpath c.source c.directory) c.directory
        (([] : List String)).head?).source = c.source := by
      rw [make_source, if_neg hnotabs, hdirn', hround]
    unfold from_db_entry
    rw [hentry]
    rw [iterFromExecution_single tools runCmd fs (n + 2) c.directory
      ([c.compiler, c.phase] ++ c.flags ++ [relpath c.source c.directory])
      { compiler := c.compiler, language := lang2, phase := [c.phase],
        flags := c.flags, files := [relpath c.source c.directory], output := [] }
      (relpath c.source c.directory) hsc rfl (by rw [hsrceq]; exact hfs)]
    show Except.ok [(Compilation.make c.compiler lang2 ([c.phase].headD "-c")
      c.flags (relpath c.source c.directory) c.directory
      (([] : List String)).head?).as_dict] = Except.ok [c.as_dict]
    have hdict : (Compilation.make c.compiler lang2 ([c.phase].headD "-c")
        c.flags (relpath c.source c.directory) c.directory
        (([] : List String)).head?).as_dict = c.as_dict := by
      unfold Compilation.as_dict
      rw [make_directory, hdirn', hsrceq]
      rfl
    rw [hdict]
  | some out =>
    by_cases hempty : out = ""
    · obtain ⟨lang2, hsplitc⟩ := splitCompiler_reparse tools runCmd n c.compiler
        c.phase (c.flags ++ [relpath c.source c.directory]) hphase htools hcomp
      have hsc : splitCommand tools runCmd (n + 2)
          ([c.compiler, c.phase] ++ c.flags ++ [relpath c.source c.directory]) =
          .ok (some { compiler := c.compiler, language := lang2, phase := [c.phase],
                      flags := c.flags, files := [relpath c.source c.directory],
                      output := [] }) := by
        unfold splitCommand
        rw [show [c.compiler, c.phase] ++ c.flags ++ [relpath c.source c.directory]
            = c.compiler :: c.phase :: (c.flags ++ [relpath c.source c.directory])
          from by simp, hsplitc]
        show scanArgs (c.phase :: (c.flags ++ [relpath c.source c.directory]))
            { compiler := c.compiler, language := lang2, phase := [], flags := [],
              files := [], output := [] } = _
        rw [scanArgs_phase_step c.phase hphase,
          scanArgs_goodflags c.flags hflags [relpath c.source c.directory] _,
          scanArgs_source_step (relpath c.source c.directory) c0 crest hrdata hc0
            hrel [] _, scanArgs_nil]
        rfl
      have hentry : c.as_db_entry fo =
          { file := relpath c.source c.directory,
            arguments := [c.compiler, c.phase] ++ c.flags ++
              [relpath c.source c.directory],
            directory := c.directory, outputField := none } := by
        simp only [Compilation.as_db_entry, hout]
        rw [if_pos hempty]
      have hsrceq : (Compilation.make c.compiler lang2 ([c.phase].headD "-c")
          c.flags (relpath c.source c.directory) c.directory
          (([] : List String)).head?).source = c.source := by
        rw [make_source, if_neg hnotabs, hdirn', hround]
      unfold from_db_entry
      rw [hentry]
      rw [iterFromExecution_single tools runCmd fs (n + 2) c.directory
        ([c.compiler, c.phase] ++ c.flags ++ [relpath c.source c.directory])
        { compiler := c.compiler, language := lang2, phase := [c.phase],
          flags := c.flags, files := [relpath c.source c.directory], output := [] }
        (relpath c.source c.directory) hsc rfl (by rw [hsrceq]; exact hfs)]
      show Except.ok [(Compilation.make c.compiler lang2 ([c.phase].headD "-c")
        c.flags (relpath c.source c.directory) c.directory
        (([] : List String)).head?).as_dict] = Except.ok [c.as_dict]
      have hdict : (Compilation.make c.compiler lang2 ([c.phase].headD "-c")
          c.flags (relpath c.source c.directory) c.directory
          (([] : List String)).head?).as_dict = c.as_dict := by
        unfold Compilation.as_dict
        rw [make_directory, hdirn', hsrceq]
        rfl
      rw [hdict]
    · obtain ⟨lang2, hsplitc⟩ := splitCompiler_reparse tools runCmd n c.compiler
        c.phase (c.flags ++ ("-o" :: out :: [relpath c.source c.directory]))
        hphase htools hcomp
      have hargs : [c.compiler, c.phase] ++ c.flags ++ ["-o", out] ++
          [relpath c.source c.directory] =
          c.compiler :: c.phase ::
            (c.flags ++ ("-o" :: out :: [relpath c.source c.directory])) := by
        simp
      have hsc : splitCommand tools runCmd (n + 2)
          ([c.compiler, c.phase] ++ c.flags ++ ["-o", out] ++
            [relpath c.source c.directory]) =
          .ok (some { compiler := c.compiler, language := lang2, phase := [c.phase],
                      flags := c.flags, files := [relpath c.source c.directory],
                      output := [out] }) := by
        unfold splitCommand
        rw [hargs, hsplitc]
        show scanArgs (c.phase ::
            (c.flags ++ ("-o" :: out :: [relpath c.source c.directory])))
            { compiler := c.compiler, language := lang2, phase := [], flags := [],
              files := [], output := [] } = _
        rw [scanArgs_phase_step c.phase hphase,
          scanArgs_goodflags c.flags hflags
            ("-o" :: out :: [relpath c.source c.directory]) _,
          scanArgs_output_step out [relpath c.source c.directory] _,
          scanArgs_source_step (relpath c.source c.directory) c0 crest hrdata hc0
            hrel [] _, scanArgs_nil]
        rfl
      have hentry : c.as_db_entry fo =
          { file := relpath c.source c.directory,
            arguments := [c.compiler, c.phase] ++ c.flags ++ ["-o", out] ++
              [relpath c.source c.directory],
            directory := c.directory,
            outputField := if fo then some out else none } := by
        simp only [Compilation.as_db_entry, hout]
        rw [if_neg hempty]
      have hsrceq : (Compilation.make c.compiler lang2 ([c.phase].headD "-c")
          c.flags (relpath c.source c.directory) c.directory
          ([out]).head?).source = c.source := by
        rw [make_source, if_neg hnotabs, hdirn', hround]
      unfold from_db_entry
      rw [hentry]
      rw [iterFromExecution_single tools runCmd fs (n + 2) c.directory
        ([c.compiler, c.phase] ++ c.flags ++ ["-o", out] ++
          [relpath c.source c.directory])
        { compiler := c.compiler, language := lang2, phase := [c.phase],
          flags := c.flags, files := [relpath c.source c.directory],
          output := [out] }
        (relpath c.source c.directory) hsc rfl (by rw [hsrceq]; exact hfs)]
      show Except.ok [(Compilation.make c.compiler lang2 ([c.phase].headD "-c")
        c.flags (relpath c.source c.directory) c.directory
        ([out]).head?).as_dict] = Except.ok [c.as_dict]
      have hdict : (Compilation.make c.compiler lang2 ([c.phase].headD "-c")
          c.flags (relpath c.source c.directory) c.directory
          ([out]).head?).as_dict = c.as_dict := by
        unfold Compilation.as_dict
        rw [make_directory, hdirn', hsrceq]
        rfl
      rw [hdict]

theorem c6_roundtrip_witness :
    (from_db_entry (Compilation.as_db_entry
        { compiler := "gcc", language := 0, phase := "-c", flags := ["-O2"],
          directory := "/p", source := "/p/sub/a.c", output := some "a.o" } false)
      defaultTools (fun _ => none) (fun s => s == "/p/sub/a.c") (0 + 2)).map
      (List.map Compilation.as_dict) =
    .ok [Compilation.as_dict
        { compiler := "gcc", language := 0, phase := "-c", flags := ["-O2"],
          directory := "/p", source := "/p/sub/a.c", output := some "a.o" }] :=
  c6_roundtrip defaultTools (fun _ => none) (fun s => s == "/p/sub/a.c") 0 false
    { compiler := "gcc", language := 0, phase := "-c", flags := ["-O2"],
      directory := "/p", source := "/p/sub/a.c", output := some "a.o" }
    (by decide) (show normpath "/p" = "/p" from by decide) (by decide)
    (by decide) (show normpath "/p/sub/a.c" = "/p/sub/a.c" from by decide)
    (by decide) (Or.inl rfl)
    (GoodFlags.single "-O2" [] (by decide) (by decide) (by decide) (by decide)
      (by decide) (by decide) (by decide) GoodFlags.nil)
    (by intro p hp; rcases hp with h | h <;> subst h <;>
      exact ⟨by decide, by decide, by decide⟩)
    (Or.inr ⟨by decide, by decide, Or.inl (by decide)⟩)
    (by decide) (by decide)

theorem c6_counterexample :
    iterFromExecution defaultTools (fun _ => none)
        (fun s => s == "/x/../y/a.c" || s == "/y/a.c") 2
        ⟨"/x", ["gcc", "-c", "/x/../y/a.c"]⟩ =
      .ok [{ compiler := "gcc", language := C_LANG, phase := "-c", flags := [],
             directory := "/x", source := "/x/../y/a.c", output := none }] ∧
    (from_db_entry (Compilation.as_db_entry
        { compiler := "gcc", language := C_LANG, phase := "-c", flags := [],
          directory := "/x", source := "/x/../y/a.c", output := none } false)
        defaultTools (fun _ => none)
        (fun s => s == "/x/../y/a.c" || s == "/y/a.c") 2).map
      (List.map Compilation.as_dict) =
      .ok [("-c", [], "/x", "/y/a.c")] ∧
    ("-c", ([] : List String), "/x", "/y/a.c") ≠ Compilation.as_dict
      { compiler := "gcc", language := C_LANG, phase := "-c", flags := [],
        directory := "/x", source := "/x/../y/a.c", output := none } :=
  ⟨rfl, rfl, by decide⟩

theorem scanArgs_scanned_abort :
    ∀ (l r : List String), Scanned l r →
      ∀ (t : String) (ys : List String), r = t :: ys →
        isAbortToken t = true →
        ∀ acc, scanArgs l acc = .ok none := by
  intro l r hl
  induction hl with
  | refl l0 =>
    intro t ys hr ht acc
    subst hr
    rw [scanArgs_cons, if_pos ht]
  | step1 x l0 r0 hx hxc hs ih =>
    intro t ys hr ht acc
    subst hr
    rw [scanArgs_cons, if_neg (by simp [hx])]
    by_cases h2 : isPhaseToken x = true
    · rw [if_pos h2]; exact ih t ys rfl ht _
    · rw [if_neg h2]
      by_cases h3 : (List.lookup x IGNORED_FLAGS).isSome = true
      · rw [if_pos h3]
        rcases hlk : List.lookup x IGNORED_FLAGS with _ | k
        · rw [hlk] at h3; exact absurd h3 (by simp)
        · cases k with
          | zero =>
            rw [if_pos (show ((some 0 : Option Nat)).getD 0 = 0 by rfl)]
            exact ih t ys rfl ht _
          | succ k2 => exact absurd (Or.inl ⟨k2, hlk⟩) hxc
      · rw [if_neg h3]
        by_cases h4 : isLinkerFlag x = true
        · rw [if_pos h4]; exact ih t ys rfl ht _
        · rw [if_neg h4]
          by_cases h5 : isPairedFlag x = true
          · exact absurd (Or.inr (Or.inl h5)) hxc
          · rw [if_neg h5]
            by_cases h6 : x = "-o"
            · exact absurd (Or.inr (Or.inr h6)) hxc
            · rw [if_neg h6]
              by_cases h7 : looksLikeSource x = true
              · rw [if_pos h7]; exact ih t ys rfl ht _
              · rw [if_neg h7]; exact ih t ys rfl ht _
  | step2 x y l0 r0 hx hxc hs ih =>
    intro t ys hr ht acc
    subst hr
    rcases hxc with ⟨k, hlk⟩ | h5 | h6
    · have hxk : x ∈ IGNORED_FLAGS.map Prod.fst := lookup_mem_keys x _ _ hlk
      have hph : isPhaseToken x = false :=
        (by decide : ∀ z ∈ IGNORED_FLAGS.map Prod.fst, isPhaseToken z = false)
          x hxk
      rw [scanArgs_cons, if_neg (by simp [hx]), if_neg (by simp [hph]),
        if_pos (by rw [hlk]; rfl), hlk, if_neg (by simp)]
      exact ih t ys rfl ht _
    · obtain ⟨g1, g2, g3, g4⟩ := pairedFlag_not_others x h5
      rw [scanArgs_cons, if_neg (by simp [hx]), if_neg (by simp [g2]),
        if_neg (by rw [g3]; simp), if_neg (by simp [g4]), if_pos h5]
      exact ih t ys rfl ht _
    · subst h6
      rw [scanArgs_output_step]
      exact ih t ys rfl ht _

/-- C3 (amended): an Execution recognized as a compiler call emits no
Compilation when one of -E, -cc1, -cc1as, -M, -MM, -### occurs at a
scanned position of the post-compiler arguments -- a position the pull
loop reaches, each earlier token having advanced it by two when that
token consumes its successor (-o, -D, -U, -I, -include, or an
IGNORED_FLAGS key with skip count one) and by one otherwise; a token
consumed as the argument of such an option escapes the abort check. -/
theorem c3_abort_tokens (tools : Tools)
    (runCmd : List String → Option (List String)) (fs : String → Bool)
    (fuel : Nat) (e : Execution) (comp : String) (lang : Nat)
    (args ys : List String) (t : String)
    (hsplit : splitCompiler tools runCmd fuel e.cmd =
      .ok (some (comp, lang, args)))
    (hscan : Scanned args (t :: ys))
    (ht : isAbortToken t = true) :
    iterFromExecution tools runCmd fs fuel e = .ok [] := by
  have hsc : splitCommand tools runCmd fuel e.cmd = .ok none := by
    unfold splitCommand
    rw [hsplit]
    exact scanArgs_scanned_abort args (t :: ys) hscan t ys rfl ht _
  unfold iterFromExecution
  rw [hsc]

/-- C3 witness: the amended statement on [gcc, -o, out.o, -E, a.c],
where -o consumed out.o and the loop then scans -E. -/
theorem c3_abort_tokens_witness :
    iterFromExecution defaultTools (fun _ => none) (fun _ => true) 8
      ⟨"/p", ["gcc", "-o", "out.o", "-E", "a.c"]⟩ = .ok [] :=
  c3_abort_tokens defaultTools (fun _ => none) (fun _ => true) 8
    ⟨"/p", ["gcc", "-o", "out.o", "-E", "a.c"]⟩ "gcc" 0
    ["-o", "out.o", "-E", "a.c"] ["a.c"] "-E" rfl
    (Scanned.step2 "-o" "out.o" ["-E", "a.c"] ["-E", "a.c"] (by decide)
      (Or.inr (Or.inr rfl)) (Scanned.refl _))
    (by decide)

/-- C3 counterexample: -E occurs in the argv of a recognized compiler
call, consumed as the argument of -MF, and a Compilation is emitted
all the same, so the claim over every occurrence anywhere fails. -/
theorem c3_counterexample :
    iterFromExecution defaultTools (fun _ => none) (fun s => s == "/p/a.c") 8
        ⟨"/p", ["gcc", "-MF", "-E", "a.c"]⟩ =
      .ok [{ compiler := "gcc", language := 0, phase := "-c", flags := [],
             directory := "/p", source := "/p/a.c", output := none }] ∧
    "-E" ∈ (["gcc", "-MF", "-E", "a.c"] : List String) ∧
    ([{ compiler := "gcc", language := 0, phase := "-c", flags := [],
        directory := "/p", source := "/p/a.c", output := none }] :
      List Compilation) ≠ [] :=
  ⟨rfl, by decide, by simp⟩

end Bear
